import Mathlib

/-!
Verification of the mod-identity and installed-mod subsystem of a game-server
mod management tool.  The Lean definitions below are a shallow embedding of
the Python modules `dzdsu/mods.py` and `dzdsu/constants.py`:

* `Mod` models the `Mod` named tuple `(id, name, enabled, update)`;
* `Mod.from_id`, `Mod.from_json`, `Mod.from_value` model the three
  constructors, with Python exceptions modelled by `Except ModError`
  (`ValueError` on a zero id, `KeyError` on a record without an `id` key,
  `TypeError` on an unsupported input shape);
* filesystem paths are modelled as lists of components with POSIX string
  rendering, so `Mod.path = MODS_DIR / str(id)` becomes list append;
* `mods_str` models the machine-string form (`sep.join(str(mod.path) ...)`).
-/

namespace Dzdsu

inductive ModError where
  | invalidIdentity
  | missingField
  | unsupportedType
deriving DecidableEq

/-- The `Mod` named tuple of `mods.py`.  A Python `NamedTuple` compares by
structural equality of all of its fields, which the derived `DecidableEq`
mirrors. -/
structure Mod where
  id : Int
  name : Option String
  enabled : Bool
  update : Bool
deriving DecidableEq

/-- `DAYZ_APP_ID = 221100` from `constants.py`. -/
def DAYZ_APP_ID : Nat := 221100

/-- `MODS_BASE_DIR = Path('steamapps/workshop/content/')` from `constants.py`,
as path components. -/
def MODS_BASE_DIR : List String := ["steamapps", "workshop", "content"]

/-- `MODS_DIR = MODS_BASE_DIR / str(DAYZ_APP_ID)` from `constants.py`. -/
def MODS_DIR : List String := MODS_BASE_DIR ++ [toString DAYZ_APP_ID]

/-- `Mod.path`: `MODS_DIR / str(self.id)`. -/
def Mod.path (m : Mod) : List String := MODS_DIR ++ [toString m.id]

/-- POSIX rendering of a relative path, i.e. `str(PosixPath(...))`:
components joined by `/`. -/
def pathString : List String → String
  | [] => ""
  | [c] => c
  | c :: c' :: rest => c ++ "/" ++ pathString (c' :: rest)

/-- `Mod.from_id`: zero ids are rejected (`ValueError`), a negative id is
canonicalised to its absolute value with `enabled=False`, a positive id is
kept with `enabled` defaulting to `True`. -/
def Mod.from_id (ident : Int) (name : Option String) (update : Bool) :
    Except ModError Mod :=
  if ident = 0 then Except.error ModError.invalidIdentity
  else if ident < 0 then Except.ok ⟨|ident|, name, false, update⟩
  else Except.ok ⟨ident, name, true, update⟩

/-- A JSON-ish record as consumed by `Mod.from_json`: the `id`, `name` and
`update` keys as optional typed fields, plus an `enabled` key that the source
never reads (kept here to state that it is ignored). -/
structure JRec where
  id : Option Int
  name : Option String
  update : Option Bool
  enabled : Option Bool
deriving DecidableEq

/-- `Mod.from_json`: reads `json["id"]` (a missing key raises `KeyError`),
`json.get("name")` and `json.get("update", True)`; delegates to `from_id`. -/
def Mod.from_json (r : JRec) : Except ModError Mod :=
  match r.id with
  | none => Except.error ModError.missingField
  | some i => Mod.from_id i r.name (r.update.getD true)

/-- The three input shapes accepted by `Mod.from_value`: a plain integer, a
structured record, or anything else. -/
inductive Value where
  | int (n : Int)
  | jrec (r : JRec)
  | other
deriving DecidableEq

/-- `Mod.from_value`: dispatch on the input shape; a shape that is neither an
integer nor a record raises `TypeError`. -/
def Mod.from_value : Value → Except ModError Mod
  | Value.int n => Mod.from_id n none true
  | Value.jrec r => Mod.from_json r
  | Value.other => Except.error ModError.unsupportedType

/-- Python's `sep.join(strings)`. -/
def strJoin (sep : String) : List String → String
  | [] => ""
  | [x] => x
  | x :: x' :: rest => x ++ sep ++ strJoin sep (x' :: rest)

/-- `mods_str(mods, sep=";")`: `sep.join(str(mod.path) for mod in mods)`. -/
def mods_str (mods : List Mod) (sep : String) : String :=
  strJoin sep (mods.map (fun m => pathString m.path))

/-- Modelled from the spec: the machine-string form as the specification
describes it, with the paths of the disabled mods excluded.  Used only to
compare the specified behaviour with the implemented `mods_str`. -/
def modsStrSpecEnabledOnly (mods : List Mod) (sep : String) : String :=
  strJoin sep ((mods.filter (fun m => m.enabled)).map (fun m => pathString m.path))

/-- The `InstalledMod` named tuple: a mod together with a base directory. -/
structure InstalledMod where
  mod : Mod
  base_dir : List String
deriving DecidableEq

/-- `InstalledMod.path`: `self.base_dir / self.mod.path`. -/
def InstalledMod.path (im : InstalledMod) : List String :=
  im.base_dir ++ im.mod.path

/-- Modelled from the spec: the path-resolution contract as the
specification words it, `base_dir / <content-network-app-id> / <identity.id>`.
Used only to compare the specified shape with the implemented path. -/
def resolveSpecPath (m : Mod) (b : List String) : List String :=
  b ++ [toString DAYZ_APP_ID, toString m.id]

theorem pathString_mod_path (m : Mod) :
    pathString m.path = "steamapps/workshop/content/221100/" ++ toString m.id := rfl

theorem from_id_eq_error (i : Int) (nm : Option String) (up : Bool) (e : ModError) :
    Mod.from_id i nm up = Except.error e ↔ i = 0 ∧ e = ModError.invalidIdentity := by
  unfold Mod.from_id
  by_cases h0 : i = 0
  · simp [h0, eq_comm]
  · by_cases hneg : i < 0 <;> simp [h0, hneg]

theorem from_id_ok_exists (i : Int) (nm : Option String) (up : Bool) :
    (∃ m, Mod.from_id i nm up = Except.ok m) ↔ i ≠ 0 := by
  unfold Mod.from_id
  by_cases h0 : i = 0
  · simp [h0]
  · by_cases hneg : i < 0 <;> simp [h0, hneg]

/-- Claim C2 counterexample: two `Mod` values with the same id but different
names are not equal, refuting that equality is determined solely by `id`
(a Python `NamedTuple` compares all fields). -/
theorem mod_eq_by_id_refuted :
    (Mod.mk 5 (some "A") true true).id = (Mod.mk 5 (some "B") true true).id ∧
      Mod.mk 5 (some "A") true true ≠ Mod.mk 5 (some "B") true true := by
  constructor
  · rfl
  · decide

/-- Claim C2 (amended): equality of two `Mod` values compares all four fields
(`id`, `name`, `enabled`, `update`), as a named tuple does; and any two `Mod`
values with the same id resolve to the same installation path regardless of
their `name`, `enabled` and `update` fields. -/
theorem mod_eq_iff_fields_and_path_by_id :
    (∀ m₁ m₂ : Mod, m₁ = m₂ ↔
      m₁.id = m₂.id ∧ m₁.name = m₂.name ∧ m₁.enabled = m₂.enabled ∧
        m₁.update = m₂.update) ∧
    (∀ m₁ m₂ : Mod, m₁.id = m₂.id → m₁.path = m₂.path) := by
  constructor
  · intro m₁ m₂
    cases m₁
    cases m₂
    simp [Mod.mk.injEq]
  · intro m₁ m₂ h
    simp [Mod.path, h]

/-- Claim C2 witness. -/
theorem mod_eq_iff_fields_and_path_by_id_witness :
    (Mod.mk 5 (some "A") true true).id = (Mod.mk 5 none false false).id ∧
      (Mod.mk 5 (some "A") true true).path = (Mod.mk 5 none false false).path :=
  ⟨by decide, mod_eq_iff_fields_and_path_by_id.2 _ _ (by decide)⟩

/-- Claim C3 counterexample: the resolved path of mod 1 under the empty base
directory is not `base / <app-id> / <id>` as the claim states, because the
code inserts the fixed `steamapps/workshop/content` components. -/
theorem resolve_spec_shape_refuted :
    InstalledMod.path ⟨⟨1, none, true, true⟩, []⟩ ≠
      resolveSpecPath ⟨1, none, true, true⟩ [] := by
  decide

/-- Claim C3 (amended): for every `Mod` `m` and base directory `b`, path
resolution yields exactly `b / steamapps / workshop / content /
<content-network-app-id> / m.id`; it is pure and deterministic (resolving
twice gives the same path) and depends only on `m.id` and `b`, not on
`m.name`, `m.enabled` or `m.update`. -/
theorem installed_path_resolution :
    (∀ (m : Mod) (b : List String), InstalledMod.path ⟨m, b⟩ =
      b ++ ["steamapps", "workshop", "content", toString DAYZ_APP_ID, toString m.id]) ∧
    (∀ (m₁ m₂ : Mod) (b : List String), m₁.id = m₂.id →
      InstalledMod.path ⟨m₁, b⟩ = InstalledMod.path ⟨m₂, b⟩) ∧
    (∀ (m : Mod) (b : List String),
      InstalledMod.path ⟨m, b⟩ = InstalledMod.path ⟨m, b⟩) := by
  refine ⟨fun m b => rfl, fun m₁ m₂ b h => ?_, fun m b => rfl⟩
  simp [InstalledMod.path, Mod.path, h]

/-- Claim C3 witness. -/
theorem installed_path_resolution_witness :
    (Mod.mk 8 (some "Foo") true true).id = (Mod.mk 8 none false false).id ∧
      InstalledMod.path ⟨⟨8, some "Foo", true, true⟩, ["srv"]⟩ =
        InstalledMod.path ⟨⟨8, none, false, false⟩, ["srv"]⟩ :=
  ⟨by decide, installed_path_resolution.2.1 _ _ ["srv"] (by decide)⟩

/-- Claim C4: for every nonzero integer `n`, `Mod.from_id` succeeds and
yields `id = |n|` and `enabled = (n > 0)`; in particular a negative input
produces the absolute value as id with `enabled` forced to `false`. -/
theorem from_id_abs_enabled (n : Int) (name : Option String) (update : Bool)
    (h : n ≠ 0) :
    Mod.from_id n name update = Except.ok ⟨|n|, name, decide (0 < n), update⟩ := by
  unfold Mod.from_id
  rw [if_neg h]
  by_cases hneg : n < 0
  · have : ¬(0 : Int) < n := by omega
    simp [hneg, this]
  · have hpos : (0 : Int) < n := by omega
    rw [if_neg hneg]
    simp [hpos, abs_of_pos hpos]

/-- Claim C4 witness: the negative input `-7`. -/
theorem from_id_abs_enabled_witness :
    (-7 : Int) ≠ 0 ∧
      Mod.from_id (-7) (some "X") false =
        Except.ok ⟨|(-7 : Int)|, some "X", decide ((0 : Int) < -7), false⟩ :=
  ⟨by decide, from_id_abs_enabled (-7) (some "X") false (by decide)⟩

/-- Claim C5 counterexample: a structured record that does have the `id` key,
with value `0`, is none of the three failing shapes the claim lists, yet
construction fails (with `InvalidIdentity`), refuting that every other input
yields a `Mod` without error. -/
theorem from_value_record_zero_refutes :
    Mod.from_value (Value.jrec ⟨some 0, none, none, none⟩) =
      Except.error ModError.invalidIdentity := rfl

/-- Claim C5 (amended): construction fails, and fails only, in exactly these
cases: integer input `0` fails with `InvalidIdentity`, a structured record
lacking the `id` key fails with `MissingField`, a structured record whose
`id` value is `0` fails with `InvalidIdentity`, and any input that is neither
an integer nor a structured record fails with `UnsupportedType`; every other
input yields a `Mod` without error. -/
theorem from_value_error_characterization : ∀ v : Value,
    (Mod.from_value v = Except.error ModError.invalidIdentity ↔
      v = Value.int 0 ∨ ∃ r, v = Value.jrec r ∧ r.id = some 0) ∧
    (Mod.from_value v = Except.error ModError.missingField ↔
      ∃ r, v = Value.jrec r ∧ r.id = none) ∧
    (Mod.from_value v = Except.error ModError.unsupportedType ↔ v = Value.other) ∧
    ((∃ m, Mod.from_value v = Except.ok m) ↔
      (∃ n, v = Value.int n ∧ n ≠ 0) ∨
        ∃ r i, v = Value.jrec r ∧ r.id = some i ∧ i ≠ 0) := by
  intro v
  cases v with
  | int n =>
    refine ⟨?_, ?_, ?_, ?_⟩ <;>
      simp [Mod.from_value, from_id_eq_error, from_id_ok_exists]
  | jrec r =>
    cases hid : r.id with
    | none =>
      refine ⟨?_, ?_, ?_, ?_⟩ <;>
        simp [Mod.from_value, Mod.from_json, hid]
    | some i =>
      refine ⟨?_, ?_, ?_, ?_⟩ <;>
        simp [Mod.from_value, Mod.from_json, hid, from_id_eq_error, from_id_ok_exists]
  | other =>
    refine ⟨?_, ?_, ?_, ?_⟩ <;> simp [Mod.from_value]

/-- Claim C10: `Mod.from_json` ignores any `enabled` key present in the
record — only the `id`, `name` and `update` keys are read — and the resulting
`enabled` flag is determined solely by the sign of the record's `id` value;
in particular a record with id 5 and `enabled: false` yields
`enabled = true`. -/
theorem from_json_ignores_enabled :
    (∀ (r : JRec) (b : Option Bool),
      Mod.from_json ⟨r.id, r.name, r.update, b⟩ = Mod.from_json r) ∧
    (∀ (r : JRec) (i : Int), r.id = some i → i ≠ 0 →
      ∃ m, Mod.from_json r = Except.ok m ∧ m.enabled = decide (0 < i)) ∧
    Mod.from_json ⟨some 5, none, none, some false⟩ =
      Except.ok ⟨5, none, true, true⟩ := by
  refine ⟨fun r b => rfl, fun r i hid hi => ?_, rfl⟩
  refine ⟨⟨|i|, r.name, decide (0 < i), r.update.getD true⟩, ?_, rfl⟩
  simp [Mod.from_json, hid, from_id_abs_enabled i r.name (r.update.getD true) hi]

/-- Claim C10 witness. -/
theorem from_json_ignores_enabled_witness :
    (JRec.mk (some (-3)) none (some false) (some true)).id = some (-3) ∧
      (-3 : Int) ≠ 0 ∧
      ∃ m, Mod.from_json ⟨some (-3), none, some false, some true⟩ = Except.ok m ∧
        m.enabled = decide ((0 : Int) < -3) :=
  ⟨rfl, by decide,
    from_json_ignores_enabled.2.1 ⟨some (-3), none, some false, some true⟩ (-3)
      rfl (by decide)⟩

/-- Claim C1 counterexample: a single disabled mod.  The implemented
machine-string form contains its path, while the specified form (paths of the
enabled mods only) is empty. -/
theorem mods_str_disabled_refutes :
    mods_str [⟨7, none, false, true⟩] ";" ≠
      modsStrSpecEnabledOnly [⟨7, none, false, true⟩] ";" := by
  decide

/-- Claim C1 (amended): the machine-string form `mods_str` is the resolved
install paths of all the given mods — enabled or disabled — joined in input
order by the separator; it does not depend on the `enabled` flags at all
(any exclusion of disabled mods is left to the caller). -/
theorem mods_str_all_mods :
    (∀ (mods : List Mod) (sep : String),
      mods_str (mods.map (fun m => ⟨m.id, m.name, false, m.update⟩)) sep =
        mods_str mods sep) ∧
    (∀ (m : Mod) (sep : String), mods_str [m] sep = pathString m.path) ∧
    (∀ (m m' : Mod) (mods : List Mod) (sep : String),
      mods_str (m :: m' :: mods) sep =
        pathString m.path ++ sep ++ mods_str (m' :: mods) sep) ∧
    (∀ (mods : List Mod) (sep : String),
      mods_str mods sep =
        strJoin sep
          (mods.map (fun m => "steamapps/workshop/content/221100/" ++ toString m.id))) := by
  refine ⟨fun mods sep => ?_, fun m sep => rfl, fun m m' mods sep => rfl,
    fun mods sep => ?_⟩
  · unfold mods_str
    congr 1
    induction mods with
    | nil => rfl
    | cons m rest ih =>
      simp only [List.map_cons]
      congr 1
  · unfold mods_str
    congr 1

/-!
### The installed-mod view over a disk store: checksum and removal

`DiskStore` models the relevant disk state for `InstalledMod.sha1sum` and
`InstalledMod.remove`: a finite map from file paths to byte contents, plus
the set of directory paths.  `sha1Hex` is a complete SHA-1, mirroring
`sha1(file.read()).hexdigest()` from `mods.py` (bytes are `Nat < 256`,
32-bit words are `Nat` reduced mod `2 ^ 32`).
-/

def mask32 (x : Nat) : Nat := x % 4294967296

def rotl (x k : Nat) : Nat := mask32 ((x <<< k) ||| (x >>> (32 - k)))

def not32 (x : Nat) : Nat := 4294967295 - mask32 x

/-- Splits a list into chunks of `n + 1` elements. -/
def chunksBy (n : Nat) (l : List Nat) : List (List Nat) :=
  if h : l = [] then [] else l.take (n + 1) :: chunksBy n (l.drop (n + 1))
termination_by l.length
decreasing_by
  simp only [List.length_drop]
  have : 0 < l.length := List.length_pos.mpr h
  omega

/-- SHA-1 message padding: `0x80`, zeros up to 56 mod 64, then the bit length
as eight big-endian bytes. -/
def sha1Pad (msg : List Nat) : List Nat :=
  let L := msg.length
  let z := (119 - L % 64) % 64
  let ml := 8 * L
  msg ++ [128] ++ List.replicate z 0 ++
    [ml / 72057594037927936 % 256, ml / 281474976710656 % 256,
     ml / 1099511627776 % 256, ml / 4294967296 % 256, ml / 16777216 % 256,
     ml / 65536 % 256, ml / 256 % 256, ml % 256]

/-- A big-endian 32-bit word from four bytes. -/
def wordOfBytes (b : List Nat) : Nat :=
  b.getD 0 0 * 16777216 + b.getD 1 0 * 65536 + b.getD 2 0 * 256 + b.getD 3 0

/-- Extends the sixteen message-schedule words to eighty. -/
def sha1Extend (ws : List Nat) : Nat → List Nat
  | 0 => ws
  | k + 1 =>
    let n := ws.length
    sha1Extend
      (ws ++ [rotl ((ws.getD (n - 3) 0) ^^^ (ws.getD (n - 8) 0) ^^^
        (ws.getD (n - 14) 0) ^^^ (ws.getD (n - 16) 0)) 1]) k

def sha1F (i b c d : Nat) : Nat :=
  if i < 20 then (b &&& c) ||| ((not32 b) &&& d)
  else if i < 40 then b ^^^ c ^^^ d
  else if i < 60 then (b &&& c) ||| (b &&& d) ||| (c &&& d)
  else b ^^^ c ^^^ d

def sha1K (i : Nat) : Nat :=
  if i < 20 then 1518500249
  else if i < 40 then 1859775393
  else if i < 60 then 2400959708
  else 3395469782

def sha1Rounds (ws : List Nat) (st : Nat × Nat × Nat × Nat × Nat) :
    Nat × Nat × Nat × Nat × Nat :=
  (List.range 80).foldl
    (fun st i =>
      let (a, b, c, d, e) := st
      let temp := mask32 (rotl a 5 + sha1F i b c d + e + sha1K i + ws.getD i 0)
      (temp, a, rotl b 30, c, d))
    st

def sha1Chunk (h : Nat × Nat × Nat × Nat × Nat) (chunk : List Nat) :
    Nat × Nat × Nat × Nat × Nat :=
  let ws := sha1Extend ((chunksBy 3 chunk).map wordOfBytes) 64
  let (a, b, c, d, e) := sha1Rounds ws h
  let (h0, h1, h2, h3, h4) := h
  (mask32 (h0 + a), mask32 (h1 + b), mask32 (h2 + c), mask32 (h3 + d),
    mask32 (h4 + e))

/-- The five 32-bit words of the SHA-1 digest of a byte sequence. -/
def sha1Words (msg : List Nat) : Nat × Nat × Nat × Nat × Nat :=
  (chunksBy 63 (sha1Pad msg)).foldl sha1Chunk
    (1732584193, 4023233417, 2562383102, 271733878, 3285377520)

def wordBytes (w : Nat) : List Nat :=
  [w / 16777216 % 256, w / 65536 % 256, w / 256 % 256, w % 256]

/-- The 20-byte SHA-1 digest. -/
def sha1Bytes (msg : List Nat) : List Nat :=
  match sha1Words msg with
  | (h0, h1, h2, h3, h4) =>
    wordBytes h0 ++ wordBytes h1 ++ wordBytes h2 ++ wordBytes h3 ++ wordBytes h4

/-- The lower-case hexadecimal digit for a nibble: `0`-`9` then `a`-`f`. -/
def hexDigitChar (n : Nat) : Char :=
  if n < 10 then Char.ofNat (48 + n) else Char.ofNat (87 + n)

def hexOfBytes : List Nat → List Char
  | [] => []
  | b :: r => hexDigitChar (b / 16 % 16) :: hexDigitChar (b % 16) :: hexOfBytes r

/-- `hashlib.sha1(bytes).hexdigest()`: the lower-case hex encoding of the
20-byte SHA-1 digest. -/
def sha1Hex (msg : List Nat) : String := String.mk (hexOfBytes (sha1Bytes msg))

/-- First-match lookup in an association list. -/
def lookupKey [DecidableEq κ] : List (κ × α) → κ → Option α
  | [], _ => none
  | (k, v) :: rest, k' => if k = k' then some v else lookupKey rest k'

/-- The disk state seen by the installed-mod view: regular files with their
byte contents, and directories. -/
structure DiskStore where
  files : List (List String × List Nat)
  dirs : List (List String)
deriving DecidableEq

inductive FsError where
  | missingMetadata
  | removalError
  | fileExists
deriving DecidableEq

/-- `InstalledMod.metadata`: `self.path / "meta.cpp"`. -/
def InstalledMod.metadata (im : InstalledMod) : List String :=
  im.path ++ ["meta.cpp"]

/-- `InstalledMod.sha1sum`: opens the metadata file in binary mode
(`FileNotFoundError`, i.e. `MissingMetadata`, if absent) and returns the hex
digest of SHA-1 over its full contents. -/
def InstalledMod.sha1sum (s : DiskStore) (im : InstalledMod) :
    Except FsError String :=
  match lookupKey s.files im.metadata with
  | none => Except.error FsError.missingMetadata
  | some bs => Except.ok (sha1Hex bs)

/-- `InstalledMod.remove`: `rmtree(self.path)` — recursively deletes the
install path subtree; `shutil.rmtree` raises (`RemovalError`) when the path
does not exist as a directory. -/
def InstalledMod.remove (s : DiskStore) (im : InstalledMod) :
    Except FsError DiskStore :=
  if s.dirs.contains im.path then
    Except.ok
      ⟨s.files.filter (fun q => !(im.path.isPrefixOf q.1)),
        s.dirs.filter (fun d => !(im.path.isPrefixOf d))⟩
  else Except.error FsError.removalError

theorem hexOfBytes_length (l : List Nat) :
    (hexOfBytes l).length = 2 * l.length := by
  induction l with
  | nil => rfl
  | cons b r ih => simp [hexOfBytes, ih]; omega

theorem sha1Bytes_length (msg : List Nat) : (sha1Bytes msg).length = 20 := by
  unfold sha1Bytes
  rcases sha1Words msg with ⟨h0, h1, h2, h3, h4⟩
  simp [wordBytes]

theorem sha1Hex_length (msg : List Nat) : (sha1Hex msg).length = 40 := by
  show (String.mk (hexOfBytes (sha1Bytes msg))).length = 40
  rw [String.length_mk, hexOfBytes_length, sha1Bytes_length]

/-- Claim C8: for every installed mod, the checksum is the hex encoding of
the 20-byte SHA-1 digest of the full byte contents of `meta.cpp`; it is
deterministic — it depends only on those bytes — and it fails with
`MissingMetadata` if and only if the metadata file does not exist. -/
theorem sha1sum_spec :
    (∀ (s : DiskStore) (im : InstalledMod) (bs : List Nat),
      lookupKey s.files im.metadata = some bs →
        InstalledMod.sha1sum s im = Except.ok (sha1Hex bs) ∧
          (sha1Hex bs).length = 40 ∧ (sha1Bytes bs).length = 20) ∧
    (∀ (s : DiskStore) (im : InstalledMod),
      InstalledMod.sha1sum s im = Except.error FsError.missingMetadata ↔
        lookupKey s.files im.metadata = none) ∧
    (∀ (s s' : DiskStore) (im im' : InstalledMod),
      lookupKey s.files im.metadata = lookupKey s'.files im'.metadata →
        InstalledMod.sha1sum s im = InstalledMod.sha1sum s' im') := by
  refine ⟨fun s im bs h => ?_, fun s im => ?_, fun s s' im im' h => ?_⟩
  · exact ⟨by simp [InstalledMod.sha1sum, h], sha1Hex_length bs, sha1Bytes_length bs⟩
  · unfold InstalledMod.sha1sum
    cases h : lookupKey s.files im.metadata <;> simp [h]
  · unfold InstalledMod.sha1sum
    rw [h]

/-- Claim C8 witness: a store holding `meta.cpp` with bytes `"abc"` for mod 5
under the empty base directory. -/
theorem sha1sum_spec_witness :
    lookupKey
        (DiskStore.mk
          [(["steamapps", "workshop", "content", "221100", "5", "meta.cpp"],
            [97, 98, 99])] []).files
        (InstalledMod.metadata ⟨⟨5, none, true, true⟩, []⟩) =
      some [97, 98, 99] ∧
    (InstalledMod.sha1sum
        (DiskStore.mk
          [(["steamapps", "workshop", "content", "221100", "5", "meta.cpp"],
            [97, 98, 99])] [])
        ⟨⟨5, none, true, true⟩, []⟩ =
      Except.ok (sha1Hex [97, 98, 99]) ∧
      (sha1Hex [97, 98, 99]).length = 40 ∧ (sha1Bytes [97, 98, 99]).length = 20) :=
  ⟨by decide, sha1sum_spec.1 _ _ [97, 98, 99] (by decide)⟩

/-- Claim C9: `remove()` succeeds exactly when the install path exists as a
directory; on a non-existent install path it fails with `RemovalError` and
never silently succeeds. -/
theorem remove_missing_path_errors :
    ∀ (s : DiskStore) (im : InstalledMod),
      ((∃ s', InstalledMod.remove s im = Except.ok s') ↔
        s.dirs.contains im.path = true) ∧
      (s.dirs.contains im.path = false →
        InstalledMod.remove s im = Except.error FsError.removalError) := by
  intro s im
  unfold InstalledMod.remove
  by_cases h : im.path ∈ s.dirs
  · have hb : s.dirs.contains im.path = true := by simpa using h
    simp [hb, h]
  · have hb : s.dirs.contains im.path = false := by simpa using h
    simp [hb, h]

/-- Claim C9 witness: removal of mod 5 from an empty disk. -/
theorem remove_missing_path_errors_witness :
    (DiskStore.mk [] []).dirs.contains
        (InstalledMod.path ⟨⟨5, none, true, true⟩, []⟩) = false ∧
      InstalledMod.remove (DiskStore.mk [] []) ⟨⟨5, none, true, true⟩, []⟩ =
        Except.error FsError.removalError :=
  ⟨by decide, (remove_missing_path_errors (DiskStore.mk [] []) _).2 (by decide)⟩

/-!
### The case-reconciliation pass (`fix_paths` / `link_to_lowercase`)

`Fs` models the directory tree of one installed mod at the two levels the
pass touches: the entries of the mod root (directories, regular files,
symlinks) and, per physical directory name, the member entries of that
directory (files and symlinks to sibling names).  Symlink resolution follows
targets like the OS does, bounded by `maxLinkDepth` (Linux `MAXSYMLINKS`);
`Path.exists()` / `Path.is_dir()` follow symlinks and return `False` for a
broken chain or a loop.  `Path.symlink_to` at a name that is present but
does not resolve (a dangling symlink) raises `FileExistsError`.  An
exception aborts the remaining steps but keeps the mutations already made,
so each operation returns a state paired with an optional error instead of
an `Except`.  `lowerStr` is `str.lower()` on the ASCII names involved.
-/

inductive Node where
  | dir
  | file
  | link (target : String)
deriving DecidableEq

inductive Leaf where
  | file
  | link (target : String)
deriving DecidableEq

structure Fs where
  root : List (String × Node)
  dirs : List (String × List (String × Leaf))
deriving DecidableEq

def lowerChar (c : Char) : Char :=
  if 65 ≤ c.toNat ∧ c.toNat ≤ 90 then Char.ofNat (c.toNat + 32) else c

def lowerStr (s : String) : String := String.mk (s.data.map lowerChar)

def maxLinkDepth : Nat := 40

def resolveRoot (es : List (String × Node)) : Nat → String → Option Node
  | 0, _ => none
  | fuel + 1, n =>
    match lookupKey es n with
    | some (Node.link t) => resolveRoot es fuel t
    | some v => some v
    | none => none

/-- `Path.exists()` of a root entry (follows symlinks). -/
def rootExists (es : List (String × Node)) (n : String) : Bool :=
  (resolveRoot es maxLinkDepth n).isSome

/-- `Path.is_dir()` of a root entry (follows symlinks). -/
def rootIsDir (es : List (String × Node)) (n : String) : Bool :=
  match resolveRoot es maxLinkDepth n with
  | some Node.dir => true
  | _ => false

def resolveRootName (es : List (String × Node)) : Nat → String → Option String
  | 0, _ => none
  | fuel + 1, n =>
    match lookupKey es n with
    | some (Node.link t) => resolveRootName es fuel t
    | some _ => some n
    | none => none

/-- The physical directory a root name resolves to, if it is a directory. -/
def physDir (es : List (String × Node)) (n : String) : Option String :=
  match resolveRootName es maxLinkDepth n with
  | some d =>
    match lookupKey es d with
    | some Node.dir => some d
    | _ => none
  | none => none

def resolveLeaf (c : List (String × Leaf)) : Nat → String → Option Leaf
  | 0, _ => none
  | fuel + 1, n =>
    match lookupKey c n with
    | some (Leaf.link t) => resolveLeaf c fuel t
    | some v => some v
    | none => none

/-- `Path.exists()` of a member of a directory (follows symlinks). -/
def leafExists (c : List (String × Leaf)) (n : String) : Bool :=
  (resolveLeaf c maxLinkDepth n).isSome

def contentsOf (ds : List (String × List (String × Leaf))) (d : String) :
    List (String × Leaf) :=
  (lookupKey ds d).getD []

/-- Replaces the contents of the (first) directory named `d`. -/
def updDirs (ds : List (String × List (String × Leaf))) (d : String)
    (c : List (String × Leaf)) : List (String × List (String × Leaf)) :=
  match ds with
  | [] => []
  | (k, v) :: rest =>
    if k = d then (k, c) :: rest else (k, v) :: updDirs rest d c

/-- `link_to_lowercase(path)` for a direct child of the mod root: no-op when
the name is already lower-case or the lower-cased path `exists()`; otherwise
creates the lower-case symlink (which raises if a dangling entry occupies
the lower-cased name). -/
def linkToLowercaseRoot (st : Fs) (filename : String) : Fs × Option FsError :=
  if filename = lowerStr filename then (st, none)
  else if rootExists st.root (lowerStr filename) then (st, none)
  else if (lookupKey st.root (lowerStr filename)).isSome then
    (st, some FsError.fileExists)
  else (⟨st.root ++ [(lowerStr filename, Node.link filename)], st.dirs⟩, none)

/-- `link_to_lowercase(pbo)` for a member of the addons directory. -/
def linkToLowercaseLeaf (c : List (String × Leaf)) (filename : String) :
    List (String × Leaf) × Option FsError :=
  if filename = lowerStr filename then (c, none)
  else if leafExists c (lowerStr filename) then (c, none)
  else if (lookupKey c (lowerStr filename)).isSome then
    (c, some FsError.fileExists)
  else (c ++ [(lowerStr filename, Leaf.link filename)], none)

/-- `addons.glob("*.pbo")`: member names with suffix `.pbo`, hidden names
(leading dot) excluded, case-sensitively. -/
def globPbo (c : List (String × Leaf)) : List String :=
  (c.map Prod.fst).filter fun n =>
    (match n.data with
     | [] => false
     | ch :: _ => ch != '.') && ".pbo".data.isSuffixOf n.data

/-- `if (addons := self.path / "Addons").is_dir(): link_to_lowercase(addons)` -/
def step1 (st : Fs) : Fs × Option FsError :=
  if rootIsDir st.root "Addons" then linkToLowercaseRoot st "Addons"
  else (st, none)

/-- `if (keys := self.path / "Keys").is_dir(): link_to_lowercase(keys)` -/
def step2 (st : Fs) : Fs × Option FsError :=
  if rootIsDir st.root "Keys" then linkToLowercaseRoot st "Keys"
  else (st, none)

/-- `if not self.keys.exists() and (key := self.path / "key").is_dir():
self.keys.symlink_to(key)` -/
def step3 (st : Fs) : Fs × Option FsError :=
  if !(rootExists st.root "keys") && rootIsDir st.root "key" then
    if (lookupKey st.root "keys").isSome then (st, some FsError.fileExists)
    else (⟨st.root ++ [("keys", Node.link "key")], st.dirs⟩, none)
  else (st, none)

/-- `for pbo in self.pbos: link_to_lowercase(pbo)`, over a snapshot of the
glob result. -/
def linkLeavesLoop :
    List (String × Leaf) → List String → List (String × Leaf) × Option FsError
  | c, [] => (c, none)
  | c, n :: rest =>
    match linkToLowercaseLeaf c n with
    | (c', none) => linkLeavesLoop c' rest
    | (c', some e) => (c', some e)

def step4 (st : Fs) : Fs × Option FsError :=
  match physDir st.root "addons" with
  | none => (st, none)
  | some d =>
    let c := contentsOf st.dirs d
    match linkLeavesLoop c (globPbo c) with
    | (c', e) => (⟨st.root, updDirs st.dirs d c'⟩, e)

def andThenFs (r : Fs × Option FsError) (f : Fs → Fs × Option FsError) :
    Fs × Option FsError :=
  match r with
  | (st, none) => f st
  | (st, some e) => (st, some e)

/-- `InstalledMod.fix_paths`. -/
def fixPaths (st : Fs) : Fs × Option FsError :=
  andThenFs (andThenFs (andThenFs (step1 st) step2) step3) step4

def nodeIsLink : Node → Bool
  | Node.link _ => true
  | _ => false

def leafIsLink : Leaf → Bool
  | Leaf.link _ => true
  | _ => false

def noLinksRoot (es : List (String × Node)) : Bool :=
  es.all fun p => !nodeIsLink p.2

def noLinksLeaves (c : List (String × Leaf)) : Bool :=
  c.all fun q => !leafIsLink q.2

/-- An installed-mod tree as the content distribution lays it out: plain
directories and regular files, no symlinks (symlinks only ever appear as
output of the reconciliation pass itself). -/
def noLinksFs (st : Fs) : Bool :=
  noLinksRoot st.root && st.dirs.all fun p => noLinksLeaves p.2

theorem lookupKey_append_some [DecidableEq κ] {l₁ l₂ : List (κ × α)} {k : κ}
    {v : α} (h : lookupKey l₁ k = some v) : lookupKey (l₁ ++ l₂) k = some v := by
  induction l₁ with
  | nil => exact absurd h (by simp [lookupKey])
  | cons p rest ih =>
    rcases p with ⟨k', v'⟩
    by_cases hk : k' = k
    · simp only [lookupKey, if_pos hk] at h
      simpa [lookupKey, hk] using h
    · simp only [lookupKey, if_neg hk] at h
      simpa [lookupKey, hk] using ih h

theorem lookupKey_append_none [DecidableEq κ] {l₁ : List (κ × α)} {k : κ}
    (l₂ : List (κ × α)) (h : lookupKey l₁ k = none) :
    lookupKey (l₁ ++ l₂) k = lookupKey l₂ k := by
  induction l₁ with
  | nil => rfl
  | cons p rest ih =>
    rcases p with ⟨k', v'⟩
    by_cases hk : k' = k
    · simp [lookupKey, hk] at h
    · simp only [lookupKey, if_neg hk] at h
      simpa [lookupKey, hk] using ih h

theorem lookupKey_of_append_none [DecidableEq κ] {l₁ l₂ : List (κ × α)} {k : κ}
    (h : lookupKey (l₁ ++ l₂) k = none) : lookupKey l₁ k = none := by
  cases hl : lookupKey l₁ k with
  | none => rfl
  | some v => rw [lookupKey_append_some hl] at h; exact absurd h (by simp)

theorem lookupKey_append_right_none [DecidableEq κ] {l₂ : List (κ × α)} {k : κ}
    (l₁ : List (κ × α)) (h : lookupKey l₂ k = none) :
    lookupKey (l₁ ++ l₂) k = lookupKey l₁ k := by
  cases hl : lookupKey l₁ k with
  | none => rw [lookupKey_append_none l₂ hl, h]
  | some v => exact lookupKey_append_some hl

theorem lookupKey_mem [DecidableEq κ] {l : List (κ × α)} {k : κ} {v : α}
    (h : lookupKey l k = some v) : (k, v) ∈ l := by
  induction l with
  | nil => exact absurd h (by simp [lookupKey])
  | cons p rest ih =>
    rcases p with ⟨k', v'⟩
    by_cases hk : k' = k
    · simp only [lookupKey, if_pos hk] at h
      cases h
      simp [hk]
    · simp only [lookupKey, if_neg hk] at h
      exact List.mem_cons_of_mem _ (ih h)

theorem char_toNat_ofNat {n : Nat} (h : n < 55296) : (Char.ofNat n).toNat = n := by
  have hv : n.isValidChar := Or.inl h
  unfold Char.ofNat
  simp only [hv, dif_pos]
  unfold Char.ofNatAux
  simp [Char.toNat, UInt32.toNat, UInt32.toBitVec, BitVec.toNat_ofNatLt]

theorem lowerChar_toNat (c : Char) :
    (lowerChar c).toNat =
      if 65 ≤ c.toNat ∧ c.toNat ≤ 90 then c.toNat + 32 else c.toNat := by
  unfold lowerChar
  by_cases h : 65 ≤ c.toNat ∧ c.toNat ≤ 90
  · rw [if_pos h, if_pos h]
    exact char_toNat_ofNat (by omega)
  · rw [if_neg h, if_neg h]

theorem lowerChar_eq_self {c : Char} (h : ¬(65 ≤ c.toNat ∧ c.toNat ≤ 90)) :
    lowerChar c = c := if_neg h

theorem lowerChar_idem (c : Char) : lowerChar (lowerChar c) = lowerChar c := by
  have ht := lowerChar_toNat c
  refine lowerChar_eq_self ?_
  by_cases h : 65 ≤ c.toNat ∧ c.toNat ≤ 90
  · rw [if_pos h] at ht
    omega
  · rw [if_neg h] at ht
    omega

theorem lowerStr_idem (s : String) : lowerStr (lowerStr s) = lowerStr s := by
  rcases s with ⟨data⟩
  show String.mk ((data.map lowerChar).map lowerChar) = String.mk (data.map lowerChar)
  congr 1
  rw [List.map_map]
  induction data with
  | nil => rfl
  | cons c rest ih => simp_all [lowerChar_idem]

theorem resolveRoot_append_some {es ex : List (String × Node)} :
    ∀ (fuel : Nat) (n : String) (v : Node), resolveRoot es fuel n = some v →
      resolveRoot (es ++ ex) fuel n = some v := by
  intro fuel
  induction fuel with
  | zero => intro n v h; exact absurd h (by simp [resolveRoot])
  | succ f ih =>
    intro n v h
    simp only [resolveRoot] at h ⊢
    cases hl : lookupKey es n with
    | none => rw [hl] at h; exact absurd h (by simp)
    | some w =>
      rw [lookupKey_append_some hl]
      rw [hl] at h
      cases w with
      | link t => exact ih t v h
      | dir => exact h
      | file => exact h

theorem rootExists_append {es ex : List (String × Node)} {n : String}
    (h : rootExists es n = true) : rootExists (es ++ ex) n = true := by
  unfold rootExists at h ⊢
  cases hr : resolveRoot es maxLinkDepth n with
  | none => rw [hr] at h; exact absurd h (by simp)
  | some v => rw [resolveRoot_append_some maxLinkDepth n v hr]; rfl

theorem rootIsDir_append {es ex : List (String × Node)} {n : String}
    (h : rootIsDir es n = true) : rootIsDir (es ++ ex) n = true := by
  unfold rootIsDir at h ⊢
  cases hr : resolveRoot es maxLinkDepth n with
  | none => rw [hr] at h; exact absurd h (by simp)
  | some v =>
    rw [resolveRoot_append_some maxLinkDepth n v hr]
    rw [hr] at h
    exact h

theorem resolveRoot_lookup_isSome {es : List (String × Node)} {f : Nat}
    {n : String} {v : Node} (h : resolveRoot es (f + 1) n = some v) :
    (lookupKey es n).isSome = true := by
  simp only [resolveRoot] at h
  cases hl : lookupKey es n with
  | none => rw [hl] at h; exact absurd h (by simp)
  | some w => rfl

theorem rootExists_of_nonlink {es : List (String × Node)} {n : String}
    {v : Node} (hl : lookupKey es n = some v) (hv : nodeIsLink v = false) :
    rootExists es n = true := by
  unfold rootExists
  rw [show maxLinkDepth = 39 + 1 from rfl]
  simp only [resolveRoot, hl]
  cases v <;> simp_all [nodeIsLink]

theorem rootExists_link {es : List (String × Node)} {n t : String} {v : Node}
    (hl : lookupKey es n = some (Node.link t)) (ht : lookupKey es t = some v)
    (hv : nodeIsLink v = false) : rootExists es n = true := by
  unfold rootExists
  rw [show maxLinkDepth = 38 + 1 + 1 from rfl]
  simp only [resolveRoot, hl, ht]
  cases v <;> simp_all [nodeIsLink]

theorem rootIsDir_of_dir {es : List (String × Node)} {n : String}
    (hl : lookupKey es n = some Node.dir) : rootIsDir es n = true := by
  unfold rootIsDir
  rw [show maxLinkDepth = 39 + 1 from rfl]
  simp [resolveRoot, hl]

theorem rootIsDir_link_dir {es : List (String × Node)} {n t : String}
    (hl : lookupKey es n = some (Node.link t))
    (ht : lookupKey es t = some Node.dir) : rootIsDir es n = true := by
  unfold rootIsDir
  rw [show maxLinkDepth = 38 + 1 + 1 from rfl]
  simp [resolveRoot, hl, ht]

theorem rootIsDir_of_file {es : List (String × Node)} {n : String}
    (hl : lookupKey es n = some Node.file) : rootIsDir es n = false := by
  unfold rootIsDir
  rw [show maxLinkDepth = 39 + 1 from rfl]
  simp [resolveRoot, hl]

theorem rootIsDir_of_none {es : List (String × Node)} {n : String}
    (hl : lookupKey es n = none) : rootIsDir es n = false := by
  unfold rootIsDir
  rw [show maxLinkDepth = 39 + 1 from rfl]
  simp [resolveRoot, hl]

theorem rootExists_of_none {es : List (String × Node)} {n : String}
    (hl : lookupKey es n = none) : rootExists es n = false := by
  unfold rootExists
  rw [show maxLinkDepth = 39 + 1 from rfl]
  simp [resolveRoot, hl]

theorem noLinksRoot_lookup {es : List (String × Node)} {n : String} {v : Node}
    (h : noLinksRoot es = true) (hl : lookupKey es n = some v) :
    nodeIsLink v = false := by
  have hm := lookupKey_mem hl
  have := List.all_eq_true.mp h _ hm
  simpa using this

theorem rootExists_noLinks {es : List (String × Node)} {n : String}
    (h : noLinksRoot es = true) :
    rootExists es n = (lookupKey es n).isSome := by
  cases hl : lookupKey es n with
  | none => simp [rootExists_of_none hl]
  | some v => simp [rootExists_of_nonlink hl (noLinksRoot_lookup h hl)]

theorem rootIsDir_noLinks {es : List (String × Node)} {n : String}
    (h : noLinksRoot es = true) :
    rootIsDir es n = true ↔ lookupKey es n = some Node.dir := by
  cases hl : lookupKey es n with
  | none => simp [rootIsDir_of_none hl]
  | some v =>
    cases v with
    | dir => simp [rootIsDir_of_dir hl]
    | file => simp [rootIsDir_of_file hl]
    | link t => have := noLinksRoot_lookup h hl; simp [nodeIsLink] at this

theorem resolveLeaf_append_some {c ex : List (String × Leaf)} :
    ∀ (fuel : Nat) (n : String) (v : Leaf), resolveLeaf c fuel n = some v →
      resolveLeaf (c ++ ex) fuel n = some v := by
  intro fuel
  induction fuel with
  | zero => intro n v h; exact absurd h (by simp [resolveLeaf])
  | succ f ih =>
    intro n v h
    simp only [resolveLeaf] at h ⊢
    cases hl : lookupKey c n with
    | none => rw [hl] at h; exact absurd h (by simp)
    | some w =>
      rw [lookupKey_append_some hl]
      rw [hl] at h
      cases w with
      | link t => exact ih t v h
      | file => exact h

theorem leafExists_append {c ex : List (String × Leaf)} {n : String}
    (h : leafExists c n = true) : leafExists (c ++ ex) n = true := by
  unfold leafExists at h ⊢
  cases hr : resolveLeaf c maxLinkDepth n with
  | none => rw [hr] at h; exact absurd h (by simp)
  | some v => rw [resolveLeaf_append_some maxLinkDepth n v hr]; rfl

theorem leafExists_of_nonlink {c : List (String × Leaf)} {n : String} {v : Leaf}
    (hl : lookupKey c n = some v) (hv : leafIsLink v = false) :
    leafExists c n = true := by
  unfold leafExists
  rw [show maxLinkDepth = 39 + 1 from rfl]
  simp only [resolveLeaf, hl]
  cases v <;> simp_all [leafIsLink]

theorem leafExists_link {c : List (String × Leaf)} {n t : String} {v : Leaf}
    (hl : lookupKey c n = some (Leaf.link t)) (ht : lookupKey c t = some v)
    (hv : leafIsLink v = false) : leafExists c n = true := by
  unfold leafExists
  rw [show maxLinkDepth = 38 + 1 + 1 from rfl]
  simp only [resolveLeaf, hl, ht]
  cases v <;> simp_all [leafIsLink]

theorem noLinksLeaves_lookup {c : List (String × Leaf)} {n : String} {v : Leaf}
    (h : noLinksLeaves c = true) (hl : lookupKey c n = some v) :
    leafIsLink v = false := by
  have hm := lookupKey_mem hl
  have := List.all_eq_true.mp h _ hm
  simpa using this

/-- Every present name in `c₀ ++ adds` resolves, when `c₀` has no symlinks
and all the added symlinks target names present in `c₀`. -/
theorem leafExists_all {c₀ adds : List (String × Leaf)}
    (h0 : noLinksLeaves c₀ = true)
    (hg : ∀ p ∈ adds, ∃ t, p.2 = Leaf.link t ∧ (lookupKey c₀ t).isSome = true)
    {n : String} (hl : (lookupKey (c₀ ++ adds) n).isSome = true) :
    leafExists (c₀ ++ adds) n = true := by
  cases h₁ : lookupKey c₀ n with
  | some w =>
    exact leafExists_of_nonlink (lookupKey_append_some h₁)
      (noLinksLeaves_lookup h0 h₁)
  | none =>
    rw [lookupKey_append_none adds h₁] at hl
    cases h₂ : lookupKey adds n with
    | none => rw [h₂] at hl; exact absurd hl (by simp)
    | some v =>
      obtain ⟨t, hvt, htm⟩ := hg _ (lookupKey_mem h₂)
      simp only [] at hvt
      cases h₃ : lookupKey c₀ t with
      | none => rw [h₃] at htm; exact absurd htm (by simp)
      | some w =>
        refine leafExists_link (t := t) ?_ (lookupKey_append_some h₃)
          (noLinksLeaves_lookup h0 h₃)
        rw [lookupKey_append_none adds h₁, h₂, hvt]

theorem updDirs_self (ds : List (String × List (String × Leaf))) (d : String) :
    updDirs ds d (contentsOf ds d) = ds := by
  induction ds with
  | nil => rfl
  | cons p rest ih =>
    rcases p with ⟨k, v⟩
    by_cases hk : k = d
    · subst hk
      simp [updDirs, contentsOf, lookupKey]
    · simp only [updDirs, if_neg hk]
      have : contentsOf ((k, v) :: rest) d = contentsOf rest d := by
        simp [contentsOf, lookupKey, hk]
      rw [this, ih]

theorem lookupKey_updDirs_ne {ds : List (String × List (String × Leaf))}
    {d x : String} (c : List (String × Leaf)) (h : x ≠ d) :
    lookupKey (updDirs ds d c) x = lookupKey ds x := by
  induction ds with
  | nil => rfl
  | cons p rest ih =>
    rcases p with ⟨k, v⟩
    simp only [updDirs]
    by_cases hk : k = d
    · rw [if_pos hk]
      have hkx : ¬(k = x) := fun hh => h (by rw [← hh, hk])
      simp [lookupKey, hkx]
    · rw [if_neg hk]
      by_cases hx : k = x <;> simp [lookupKey, hx, ih]

theorem lookupKey_updDirs_self {ds : List (String × List (String × Leaf))}
    {d : String} (c : List (String × Leaf))
    (h : (lookupKey ds d).isSome = true) :
    lookupKey (updDirs ds d c) d = some c := by
  induction ds with
  | nil => simp [lookupKey] at h
  | cons p rest ih =>
    rcases p with ⟨k, v⟩
    by_cases hk : k = d
    · subst hk
      simp [updDirs, lookupKey]
    · simp only [lookupKey, if_neg hk] at h
      simp [updDirs, lookupKey, hk, ih h]

theorem updDirs_of_none {ds : List (String × List (String × Leaf))}
    {d : String} (c : List (String × Leaf)) (h : lookupKey ds d = none) :
    updDirs ds d c = ds := by
  induction ds with
  | nil => rfl
  | cons p rest ih =>
    rcases p with ⟨k, v⟩
    by_cases hk : k = d
    · simp [lookupKey, hk] at h
    · simp only [lookupKey, if_neg hk] at h
      simp [updDirs, hk, ih h]

theorem mem_keys_lookup_isSome {c : List (String × Leaf)} {n : String}
    (h : n ∈ c.map Prod.fst) : (lookupKey c n).isSome = true := by
  induction c with
  | nil => simp at h
  | cons p rest ih =>
    rcases p with ⟨k, v⟩
    by_cases hk : k = n
    · simp [lookupKey, hk]
    · simp only [List.map_cons, List.mem_cons] at h
      rcases h with h | h
      · exact absurd h.symm hk
      · simp [lookupKey, hk, ih h]

theorem globPbo_mem_lookup {c : List (String × Leaf)} {n : String}
    (h : n ∈ globPbo c) : (lookupKey c n).isSome = true := by
  unfold globPbo at h
  exact mem_keys_lookup_isSome (List.mem_of_mem_filter h)

theorem llr_skip1 {st : Fs} {f : String} (h : f = lowerStr f) :
    linkToLowercaseRoot st f = (st, none) := by
  unfold linkToLowercaseRoot
  rw [if_pos h]

theorem llr_skip2 {st : Fs} {f : String} (h1 : f ≠ lowerStr f)
    (h2 : rootExists st.root (lowerStr f) = true) :
    linkToLowercaseRoot st f = (st, none) := by
  unfold linkToLowercaseRoot
  rw [if_neg h1, if_pos h2]

theorem llr_err {st : Fs} {f : String} (h1 : f ≠ lowerStr f)
    (h2 : rootExists st.root (lowerStr f) = false)
    (h3 : (lookupKey st.root (lowerStr f)).isSome = true) :
    linkToLowercaseRoot st f = (st, some FsError.fileExists) := by
  unfold linkToLowercaseRoot
  rw [if_neg h1, if_neg (by simp [h2]), if_pos h3]

theorem llr_add {st : Fs} {f : String} (h1 : f ≠ lowerStr f)
    (h2 : rootExists st.root (lowerStr f) = false)
    (h3 : lookupKey st.root (lowerStr f) = none) :
    linkToLowercaseRoot st f =
      (⟨st.root ++ [(lowerStr f, Node.link f)], st.dirs⟩, none) := by
  unfold linkToLowercaseRoot
  rw [if_neg h1, if_neg (by simp [h2]), if_neg (by simp [h3])]

theorem lll_skip1 {c : List (String × Leaf)} {n : String} (h : n = lowerStr n) :
    linkToLowercaseLeaf c n = (c, none) := by
  unfold linkToLowercaseLeaf
  rw [if_pos h]

theorem lll_skip2 {c : List (String × Leaf)} {n : String} (h1 : n ≠ lowerStr n)
    (h2 : leafExists c (lowerStr n) = true) :
    linkToLowercaseLeaf c n = (c, none) := by
  unfold linkToLowercaseLeaf
  rw [if_neg h1, if_pos h2]

theorem lll_err {c : List (String × Leaf)} {n : String} (h1 : n ≠ lowerStr n)
    (h2 : leafExists c (lowerStr n) = false)
    (h3 : (lookupKey c (lowerStr n)).isSome = true) :
    linkToLowercaseLeaf c n = (c, some FsError.fileExists) := by
  unfold linkToLowercaseLeaf
  rw [if_neg h1, if_neg (by simp [h2]), if_pos h3]

theorem lll_add {c : List (String × Leaf)} {n : String} (h1 : n ≠ lowerStr n)
    (h2 : leafExists c (lowerStr n) = false)
    (h3 : lookupKey c (lowerStr n) = none) :
    linkToLowercaseLeaf c n = (c ++ [(lowerStr n, Leaf.link n)], none) := by
  unfold linkToLowercaseLeaf
  rw [if_neg h1, if_neg (by simp [h2]), if_neg (by simp [h3])]

/-- Frame property of the pbo loop: whatever happens (error or not), the
contents only grow by lower-case symlinks at fresh names whose targets are
names the loop was given. -/
theorem linkLeavesLoop_frame :
    ∀ (L : List String) (c c' : List (String × Leaf)) (e : Option FsError),
      linkLeavesLoop c L = (c', e) →
      ∃ la, c' = c ++ la ∧
        ∀ p ∈ la, ∃ t, t ∈ L ∧ p = (lowerStr t, Leaf.link t) ∧
          lowerStr t ≠ t ∧ lookupKey c (lowerStr t) = none := by
  intro L
  induction L with
  | nil =>
    intro c c' e h
    simp only [linkLeavesLoop] at h
    cases h
    exact ⟨[], by simp, by simp⟩
  | cons n rest ih =>
    intro c c' e h
    by_cases h1 : n = lowerStr n
    · rw [linkLeavesLoop, lll_skip1 h1] at h
      obtain ⟨la, hc, hp⟩ := ih c c' e h
      exact ⟨la, hc, fun p hp' =>
        have ⟨t, ht, h₁, h₂, h₃⟩ := hp p hp'
        ⟨t, List.mem_cons_of_mem _ ht, h₁, h₂, h₃⟩⟩
    · by_cases h2 : leafExists c (lowerStr n) = true
      · rw [linkLeavesLoop, lll_skip2 h1 h2] at h
        obtain ⟨la, hc, hp⟩ := ih c c' e h
        exact ⟨la, hc, fun p hp' =>
          have ⟨t, ht, h₁, h₂, h₃⟩ := hp p hp'
          ⟨t, List.mem_cons_of_mem _ ht, h₁, h₂, h₃⟩⟩
      · have h2' : leafExists c (lowerStr n) = false := by
          revert h2; cases leafExists c (lowerStr n) <;> simp
        by_cases h3 : (lookupKey c (lowerStr n)).isSome = true
        · rw [linkLeavesLoop, lll_err h1 h2' h3] at h
          cases h
          exact ⟨[], by simp, by simp⟩
        · have h3' : lookupKey c (lowerStr n) = none := by
            revert h3; cases lookupKey c (lowerStr n) <;> simp
          rw [linkLeavesLoop, lll_add h1 h2' h3'] at h
          obtain ⟨la, hc, hp⟩ := ih _ c' e h
          refine ⟨(lowerStr n, Leaf.link n) :: la, by rw [hc]; simp, ?_⟩
          intro p hp'
          rcases List.mem_cons.mp hp' with rfl | hp'
          · exact ⟨n, by simp, rfl, fun hh => h1 hh.symm, h3'⟩
          · obtain ⟨t, ht, hpt, hlt, hnone⟩ := hp p hp'
            exact ⟨t, List.mem_cons_of_mem _ ht, hpt, hlt,
              lookupKey_of_append_none hnone⟩

/-- On a symlink-free contents list, the pbo loop never errors, only appends
good lower-case symlinks, and afterwards every processed name either is
already lower-case or has its lower-case twin resolvable. -/
theorem linkLeavesLoop_ok {c₀ : List (String × Leaf)}
    (h0 : noLinksLeaves c₀ = true) :
    ∀ (L : List String), (∀ n ∈ L, (lookupKey c₀ n).isSome = true) →
    ∀ adds, (∀ p ∈ adds, ∃ t, p.2 = Leaf.link t ∧ (lookupKey c₀ t).isSome = true) →
    ∃ adds',
      linkLeavesLoop (c₀ ++ adds) L = (c₀ ++ (adds ++ adds'), none) ∧
      (∀ p ∈ adds ++ adds',
        ∃ t, p.2 = Leaf.link t ∧ (lookupKey c₀ t).isSome = true) ∧
      ∀ n ∈ L, lowerStr n = n ∨
        leafExists (c₀ ++ (adds ++ adds')) (lowerStr n) = true := by
  intro L
  induction L with
  | nil =>
    intro _ adds hg
    exact ⟨[], by simp [linkLeavesLoop], by simpa using hg, by simp⟩
  | cons n rest ih =>
    intro hL adds hg
    by_cases h1 : n = lowerStr n
    · obtain ⟨adds', hrun, hg', hpost⟩ :=
        ih (fun m hm => hL m (List.mem_cons_of_mem _ hm)) adds hg
      refine ⟨adds', ?_, hg', ?_⟩
      · rw [linkLeavesLoop, lll_skip1 h1]
        exact hrun
      · intro m hm
        rcases List.mem_cons.mp hm with rfl | hm
        · exact Or.inl h1.symm
        · exact hpost m hm
    · by_cases h2 : leafExists (c₀ ++ adds) (lowerStr n) = true
      · obtain ⟨adds', hrun, hg', hpost⟩ :=
          ih (fun m hm => hL m (List.mem_cons_of_mem _ hm)) adds hg
        refine ⟨adds', ?_, hg', ?_⟩
        · rw [linkLeavesLoop, lll_skip2 h1 h2]
          exact hrun
        · intro m hm
          rcases List.mem_cons.mp hm with rfl | hm
          · refine Or.inr ?_
            have : c₀ ++ (adds ++ adds') = (c₀ ++ adds) ++ adds' := by simp
            rw [this]
            exact leafExists_append h2
          · exact hpost m hm
      · have h2' : leafExists (c₀ ++ adds) (lowerStr n) = false := by
          revert h2; cases leafExists (c₀ ++ adds) (lowerStr n) <;> simp
        have h3' : lookupKey (c₀ ++ adds) (lowerStr n) = none := by
          cases hx : lookupKey (c₀ ++ adds) (lowerStr n) with
          | none => rfl
          | some v =>
            have := leafExists_all h0 hg (by rw [hx]; rfl)
            rw [h2'] at this
            exact absurd this (by simp)
        have hc₀n : lookupKey c₀ (lowerStr n) = none := lookupKey_of_append_none h3'
        have haddsn : lookupKey adds (lowerStr n) = none := by
          rw [lookupKey_append_none adds hc₀n] at h3'
          exact h3'
        have hgp : ∀ p ∈ adds ++ [(lowerStr n, Leaf.link n)],
            ∃ t, p.2 = Leaf.link t ∧ (lookupKey c₀ t).isSome = true := by
          intro p hp
          rcases List.mem_append.mp hp with hp | hp
          · exact hg p hp
          · rcases List.mem_singleton.mp hp with rfl
            exact ⟨n, rfl, hL n (List.mem_cons_self n rest)⟩
        obtain ⟨adds', hrun, hg', hpost⟩ :=
          ih (fun m hm => hL m (List.mem_cons_of_mem _ hm))
            (adds ++ [(lowerStr n, Leaf.link n)]) hgp
        have hshape : adds ++ ((lowerStr n, Leaf.link n) :: adds') =
            (adds ++ [(lowerStr n, Leaf.link n)]) ++ adds' := by simp
        refine ⟨(lowerStr n, Leaf.link n) :: adds', ?_, ?_, ?_⟩
        · rw [linkLeavesLoop, lll_add h1 h2' h3']
          rw [hshape]
          rw [show (c₀ ++ adds) ++ [(lowerStr n, Leaf.link n)] =
            c₀ ++ (adds ++ [(lowerStr n, Leaf.link n)]) by simp]
          exact hrun
        · rw [hshape]
          exact hg'
        · intro m hm
          rcases List.mem_cons.mp hm with rfl | hm
          · refine Or.inr ?_
            rw [hshape]
            refine leafExists_all h0 hg' ?_
            have hmid : lookupKey
                ((adds ++ [(lowerStr m, Leaf.link m)]) ++ adds') (lowerStr m) =
                  some (Leaf.link m) := by
              apply lookupKey_append_some
              rw [lookupKey_append_none _ haddsn]
              simp [lookupKey]
            rw [lookupKey_append_none _ hc₀n, hmid]
            rfl
          · have := hpost m hm
            rw [hshape]
            exact this

theorem rootIsDir_lookup_isSome {es : List (String × Node)} {n : String}
    (h : rootIsDir es n = true) : (lookupKey es n).isSome = true := by
  unfold rootIsDir at h
  cases hr : resolveRoot es maxLinkDepth n with
  | none => rw [hr] at h; exact absurd h (by simp)
  | some v =>
    rw [show maxLinkDepth = 39 + 1 from rfl] at hr
    exact resolveRoot_lookup_isSome hr

theorem isSome_of_append {es ra : List (String × Node)} {n : String}
    (hra : lookupKey ra n = none)
    (h : (lookupKey (es ++ ra) n).isSome = true) :
    (lookupKey es n).isSome = true := by
  cases hl : lookupKey es n with
  | some v => rfl
  | none =>
    rw [lookupKey_append_none ra hl, hra] at h
    exact absurd h (by simp)

theorem llr_frame {st s : Fs} {e : Option FsError} {f : String}
    (hne : f ≠ lowerStr f) (h : linkToLowercaseRoot st f = (s, e)) :
    s.dirs = st.dirs ∧
    (s.root = st.root ∨
      (s.root = st.root ++ [(lowerStr f, Node.link f)] ∧
        lookupKey st.root (lowerStr f) = none)) := by
  by_cases he : rootExists st.root (lowerStr f) = true
  · rw [llr_skip2 hne he] at h
    cases h
    exact ⟨rfl, Or.inl rfl⟩
  · have he' : rootExists st.root (lowerStr f) = false := by
      revert he; cases rootExists st.root (lowerStr f) <;> simp
    by_cases hs : (lookupKey st.root (lowerStr f)).isSome = true
    · rw [llr_err hne he' hs] at h
      cases h
      exact ⟨rfl, Or.inl rfl⟩
    · have hnone : lookupKey st.root (lowerStr f) = none := by
        revert hs; cases lookupKey st.root (lowerStr f) <;> simp
      rw [llr_add hne he' hnone] at h
      cases h
      exact ⟨rfl, Or.inr ⟨rfl, hnone⟩⟩

theorem step1_frame {st s : Fs} {e : Option FsError} (h : step1 st = (s, e)) :
    s.dirs = st.dirs ∧
    (s.root = st.root ∨
      (s.root = st.root ++ [("addons", Node.link "Addons")] ∧
        (lookupKey st.root "Addons").isSome = true ∧
        lookupKey st.root "addons" = none)) := by
  unfold step1 at h
  by_cases hd : rootIsDir st.root "Addons" = true
  · rw [if_pos hd] at h
    have := llr_frame (f := "Addons") (by decide) h
    rw [show lowerStr "Addons" = "addons" from rfl] at this
    rcases this with ⟨hdirs, hl | ⟨hr, hn⟩⟩
    · exact ⟨hdirs, Or.inl hl⟩
    · exact ⟨hdirs, Or.inr ⟨hr, rootIsDir_lookup_isSome hd, hn⟩⟩
  · rw [if_neg hd] at h
    cases h
    exact ⟨rfl, Or.inl rfl⟩

theorem step2_frame {st s : Fs} {e : Option FsError} (h : step2 st = (s, e)) :
    s.dirs = st.dirs ∧
    (s.root = st.root ∨
      (s.root = st.root ++ [("keys", Node.link "Keys")] ∧
        (lookupKey st.root "Keys").isSome = true ∧
        lookupKey st.root "keys" = none)) := by
  unfold step2 at h
  by_cases hd : rootIsDir st.root "Keys" = true
  · rw [if_pos hd] at h
    have := llr_frame (f := "Keys") (by decide) h
    rw [show lowerStr "Keys" = "keys" from rfl] at this
    rcases this with ⟨hdirs, hl | ⟨hr, hn⟩⟩
    · exact ⟨hdirs, Or.inl hl⟩
    · exact ⟨hdirs, Or.inr ⟨hr, rootIsDir_lookup_isSome hd, hn⟩⟩
  · rw [if_neg hd] at h
    cases h
    exact ⟨rfl, Or.inl rfl⟩

theorem step3_frame {st s : Fs} {e : Option FsError} (h : step3 st = (s, e)) :
    s.dirs = st.dirs ∧
    (s.root = st.root ∨
      (s.root = st.root ++ [("keys", Node.link "key")] ∧
        (lookupKey st.root "key").isSome = true ∧
        lookupKey st.root "keys" = none)) := by
  unfold step3 at h
  by_cases hg : (!(rootExists st.root "keys") && rootIsDir st.root "key") = true
  · rw [if_pos hg] at h
    have hkd : rootIsDir st.root "key" = true := by
      revert hg
      cases rootIsDir st.root "key" <;> cases rootExists st.root "keys" <;> simp
    by_cases hs : (lookupKey st.root "keys").isSome = true
    · rw [if_pos hs] at h
      cases h
      exact ⟨rfl, Or.inl rfl⟩
    · have hnone : lookupKey st.root "keys" = none := by
        revert hs; cases lookupKey st.root "keys" <;> simp
      rw [if_neg (by simp [hnone])] at h
      cases h
      exact ⟨rfl, Or.inr ⟨rfl, rootIsDir_lookup_isSome hkd, hnone⟩⟩
  · rw [if_neg hg] at h
    cases h
    exact ⟨rfl, Or.inl rfl⟩

theorem step4_frame {st s : Fs} {e : Option FsError} (h : step4 st = (s, e)) :
    s.root = st.root ∧
    ∀ x, ∃ la, contentsOf s.dirs x = contentsOf st.dirs x ++ la ∧
      ∀ p ∈ la, ∃ t, p = (lowerStr t, Leaf.link t) ∧ lowerStr t ≠ t ∧
        (lookupKey (contentsOf st.dirs x) t).isSome = true ∧
        lookupKey (contentsOf st.dirs x) (lowerStr t) = none := by
  unfold step4 at h
  cases hp : physDir st.root "addons" with
  | none =>
    rw [hp] at h
    cases h
    exact ⟨rfl, fun x => ⟨[], by simp, by simp⟩⟩
  | some d =>
    rw [hp] at h
    dsimp only at h
    rcases hloop : linkLeavesLoop (contentsOf st.dirs d)
        (globPbo (contentsOf st.dirs d)) with ⟨c', e'⟩
    rw [hloop] at h
    dsimp only at h
    cases h
    obtain ⟨la, hc, hgood⟩ := linkLeavesLoop_frame _ _ _ _ hloop
    refine ⟨rfl, fun x => ?_⟩
    by_cases hx : x = d
    · subst hx
      cases hd : lookupKey st.dirs x with
      | none =>
        rw [updDirs_of_none c' hd]
        have hcx : contentsOf st.dirs x = [] := by simp [contentsOf, hd]
        refine ⟨[], by simp, by simp⟩
      | some cv =>
        have : contentsOf (updDirs st.dirs x c') x = c' := by
          unfold contentsOf
          rw [lookupKey_updDirs_self c' (by rw [hd]; rfl)]
          rfl
        rw [this, hc]
        refine ⟨la, rfl, ?_⟩
        intro p hp'
        obtain ⟨t, htL, hpt, hlt, hnone⟩ := hgood p hp'
        exact ⟨t, hpt, hlt, globPbo_mem_lookup htL, hnone⟩
    · refine ⟨[], ?_, by simp⟩
      simp [contentsOf, lookupKey_updDirs_ne c' hx]

/-- The additions the pass may make at the mod root: lower-case-named
symlinks, never self-links, pointing at names present beforehand, at names
free beforehand. -/
def goodRootAdds (es ra : List (String × Node)) : Prop :=
  ∀ p ∈ ra, ∃ t, p.2 = Node.link t ∧ lowerStr p.1 = p.1 ∧ p.1 ≠ t ∧
    (lookupKey es t).isSome = true ∧ lookupKey es p.1 = none

/-- The additions the pass may make inside the addons directory. -/
def goodLeafAdds (c la : List (String × Leaf)) : Prop :=
  ∀ p ∈ la, ∃ t, p.2 = Leaf.link t ∧ lowerStr p.1 = p.1 ∧ p.1 ≠ t ∧
    (lookupKey c t).isSome = true ∧ lookupKey c p.1 = none

theorem lookupKey_eq_none_of_not_mem_keys [DecidableEq κ] {l : List (κ × α)}
    {k : κ} (h : k ∉ l.map Prod.fst) : lookupKey l k = none := by
  induction l with
  | nil => rfl
  | cons p rest ih =>
    rcases p with ⟨k', v⟩
    simp only [List.map_cons, List.mem_cons] at h
    push_neg at h
    simp only [lookupKey, ih h.2, if_neg (fun hh : k' = k => h.1 hh.symm)]

def rootFrameUpto (st s : Fs) (names : List String) : Prop :=
  s.dirs = st.dirs ∧ ∃ ra, s.root = st.root ++ ra ∧ goodRootAdds st.root ra ∧
    ∀ n ∈ ra.map Prod.fst, n ∈ names

theorem rootFrameUpto_refl (st : Fs) : rootFrameUpto st st [] :=
  ⟨rfl, [], by simp, fun p hp => absurd hp (by simp), fun n hn => absurd hn (by simp)⟩

theorem rootFrame_extend {st s1 s2 : Fs} {ns : List String} {nm tg : String}
    (hf : rootFrameUpto st s1 ns)
    (hda : s2.dirs = s1.dirs)
    (hd : s2.root = s1.root ∨
      (s2.root = s1.root ++ [(nm, Node.link tg)] ∧
        (lookupKey s1.root tg).isSome = true ∧ lookupKey s1.root nm = none))
    (hnm : lowerStr nm = nm) (hne : nm ≠ tg) (htg : tg ∉ ns) :
    rootFrameUpto st s2 (ns ++ [nm]) := by
  obtain ⟨hdirs, ra, hroot, hgood, hsub⟩ := hf
  rcases hd with hs | ⟨hs, htgt, hfresh⟩
  · exact ⟨hda.trans hdirs, ra, hs ▸ hroot, hgood,
      fun n hn => List.mem_append_left _ (hsub n hn)⟩
  · have hranames : lookupKey ra tg = none := by
      refine lookupKey_eq_none_of_not_mem_keys fun hm => htg (hsub tg hm)
    refine ⟨hda.trans hdirs, ra ++ [(nm, Node.link tg)], ?_, ?_, ?_⟩
    · rw [hs, hroot, List.append_assoc]
    · intro p hp
      rcases List.mem_append.mp hp with hp | hp
      · exact hgood p hp
      · rcases List.mem_singleton.mp hp with rfl
        refine ⟨tg, rfl, hnm, hne, ?_, ?_⟩
        · rw [hroot] at htgt
          exact isSome_of_append hranames htgt
        · rw [hroot] at hfresh
          exact lookupKey_of_append_none hfresh
    · intro n hn
      simp only [List.map_append, List.mem_append] at hn
      rcases hn with hn | hn
      · exact List.mem_append_left _ (hsub n hn)
      · simp only [List.map_cons, List.map_nil, List.mem_singleton] at hn
        subst hn
        exact List.mem_append_right _ (by simp)

theorem rootFrame_steps {st s1 s2 s3 : Fs} {e1 e2 e3 : Option FsError}
    (h1 : step1 st = (s1, e1)) (h2 : step2 s1 = (s2, e2))
    (h3 : step3 s2 = (s3, e3)) :
    rootFrameUpto st s3 (["addons"] ++ ["keys"] ++ ["keys"]) := by
  have f1 := step1_frame h1
  have f2 := step2_frame h2
  have f3 := step3_frame h3
  have u1 : rootFrameUpto st s1 ([] ++ ["addons"]) :=
    rootFrame_extend (rootFrameUpto_refl st) f1.1 f1.2 (by decide) (by decide)
      (by simp)
  have u2 : rootFrameUpto st s2 ([] ++ ["addons"] ++ ["keys"]) :=
    rootFrame_extend u1 f2.1 f2.2 (by decide) (by decide) (by decide)
  have u3 := rootFrame_extend u2 f3.1 f3.2 (by decide) (by decide) (by decide)
  simpa using u3

theorem fixPaths_shape (st s : Fs) (e : Option FsError)
    (h : fixPaths st = (s, e)) :
    (∃ err, e = some err ∧ step1 st = (s, some err)) ∨
    (∃ s1, step1 st = (s1, none) ∧
      ((∃ err, e = some err ∧ step2 s1 = (s, some err)) ∨
       (∃ s2, step2 s1 = (s2, none) ∧
         ((∃ err, e = some err ∧ step3 s2 = (s, some err)) ∨
          (∃ s3, step3 s2 = (s3, none) ∧ step4 s3 = (s, e)))))) := by
  unfold fixPaths andThenFs at h
  rcases h1 : step1 st with ⟨s1, e1⟩
  rw [h1] at h
  cases e1 with
  | some err =>
    dsimp only at h
    injection h with hs he
    exact Or.inl ⟨err, he.symm, by rw [hs]⟩
  | none =>
    dsimp only at h
    rcases h2 : step2 s1 with ⟨s2, e2⟩
    rw [h2] at h
    cases e2 with
    | some err =>
      dsimp only at h
      injection h with hs he
      exact Or.inr ⟨s1, rfl, Or.inl ⟨err, he.symm, by rw [← hs]; exact h2⟩⟩
    | none =>
      dsimp only at h
      rcases h3 : step3 s2 with ⟨s3, e3⟩
      rw [h3] at h
      cases e3 with
      | some err =>
        dsimp only at h
        injection h with hs he
        exact Or.inr ⟨s1, rfl,
          Or.inr ⟨s2, h2, Or.inl ⟨err, he.symm, by rw [← hs]; exact h3⟩⟩⟩
      | none =>
        dsimp only at h
        exact Or.inr ⟨s1, rfl, Or.inr ⟨s2, h2, Or.inr ⟨s3, h3, h⟩⟩⟩

theorem goodLeafAdds_of_shape {c : List (String × Leaf)}
    {la : List (String × Leaf)}
    (h : ∀ p ∈ la, ∃ t, p = (lowerStr t, Leaf.link t) ∧ lowerStr t ≠ t ∧
      (lookupKey c t).isSome = true ∧ lookupKey c (lowerStr t) = none) :
    goodLeafAdds c la := by
  intro p hp
  obtain ⟨t, hpt, hlt, hts, hfr⟩ := h p hp
  subst hpt
  exact ⟨t, rfl, lowerStr_idem t, hlt, hts, hfr⟩

theorem rootFrameUpto_conclusion {st s : Fs} {ns : List String}
    (h : rootFrameUpto st s ns) :
    (∃ ra, s.root = st.root ++ ra ∧ goodRootAdds st.root ra) ∧
    ∀ x, ∃ la, contentsOf s.dirs x = contentsOf st.dirs x ++ la ∧
      goodLeafAdds (contentsOf st.dirs x) la := by
  obtain ⟨hdirs, ra, hroot, hgood, _⟩ := h
  exact ⟨⟨ra, hroot, hgood⟩, fun x => ⟨[], by rw [hdirs]; simp, by simp [goodLeafAdds]⟩⟩

/-- Claim C7: the case-reconciliation pass never overwrites, replaces or
deletes any existing filesystem entry: whatever the outcome (error included),
the root entries and each directory's contents of the result are those of
the input followed by additions only, and every addition is a new symlink
with an all-lower-case name, never a self-link, at a name that was free,
pointing at a name that existed beforehand. -/
theorem fixPaths_never_overwrites :
    ∀ (st s : Fs) (e : Option FsError), fixPaths st = (s, e) →
      (∃ ra, s.root = st.root ++ ra ∧ goodRootAdds st.root ra) ∧
      (∀ x, ∃ la, contentsOf s.dirs x = contentsOf st.dirs x ++ la ∧
        goodLeafAdds (contentsOf st.dirs x) la) := by
  intro st s e h
  rcases fixPaths_shape st s e h with ⟨err, he, h1⟩ | ⟨s1, h1, hrest⟩
  · have f1 := step1_frame h1
    have u1 : rootFrameUpto st s ([] ++ ["addons"]) :=
      rootFrame_extend (rootFrameUpto_refl st) f1.1 f1.2 (by decide) (by decide)
        (by simp)
    exact rootFrameUpto_conclusion u1
  · rcases hrest with ⟨err, he, h2⟩ | ⟨s2, h2, hrest⟩
    · have f1 := step1_frame h1
      have u1 : rootFrameUpto st s1 ([] ++ ["addons"]) :=
        rootFrame_extend (rootFrameUpto_refl st) f1.1 f1.2 (by decide)
          (by decide) (by simp)
      have f2 := step2_frame h2
      have u2 := rootFrame_extend u1 f2.1 f2.2 (by decide) (by decide) (by decide)
      exact rootFrameUpto_conclusion u2
    · rcases hrest with ⟨err, he, h3⟩ | ⟨s3, h3, h4⟩
      · exact rootFrameUpto_conclusion (rootFrame_steps h1 h2 h3)
      · obtain ⟨hdirs3, ra, hroot3, hgood3, _⟩ := rootFrame_steps h1 h2 h3
        obtain ⟨hroot4, hleaf4⟩ := step4_frame h4
        constructor
        · exact ⟨ra, hroot4.trans hroot3, hgood3⟩
        · intro x
          obtain ⟨la, hc, hgood⟩ := hleaf4 x
          rw [hdirs3] at hc hgood
          exact ⟨la, hc, goodLeafAdds_of_shape hgood⟩

theorem globPbo_append (c₁ c₂ : List (String × Leaf)) :
    globPbo (c₁ ++ c₂) = globPbo c₁ ++ globPbo c₂ := by
  simp [globPbo, List.filter_append]

/-- `link_to_lowercase` cannot raise when any present entry at the
lower-cased name resolves. -/
theorem llr_no_error {st : Fs} {f : String} (hne : f ≠ lowerStr f)
    (hres : (lookupKey st.root (lowerStr f)).isSome = true →
      rootExists st.root (lowerStr f) = true) :
    ∃ s, linkToLowercaseRoot st f = (s, none) := by
  by_cases he : rootExists st.root (lowerStr f) = true
  · exact ⟨st, llr_skip2 hne he⟩
  · have he' : rootExists st.root (lowerStr f) = false := by
      revert he; cases rootExists st.root (lowerStr f) <;> simp
    have hnone : lookupKey st.root (lowerStr f) = none := by
      cases hl : lookupKey st.root (lowerStr f) with
      | none => rfl
      | some v => exact absurd (hres (by rw [hl]; rfl)) he
    exact ⟨_, llr_add hne he' hnone⟩

theorem step1_no_error {st : Fs}
    (hres : (lookupKey st.root "addons").isSome = true →
      rootExists st.root "addons" = true) :
    ∃ s1, step1 st = (s1, none) := by
  unfold step1
  by_cases hid : rootIsDir st.root "Addons" = true
  · rw [if_pos hid]
    exact llr_no_error (f := "Addons") (by decide) hres
  · rw [if_neg hid]
    exact ⟨st, rfl⟩

theorem step2_no_error {st : Fs}
    (hres : (lookupKey st.root "keys").isSome = true →
      rootExists st.root "keys" = true) :
    ∃ s2, step2 st = (s2, none) := by
  unfold step2
  by_cases hid : rootIsDir st.root "Keys" = true
  · rw [if_pos hid]
    exact llr_no_error (f := "Keys") (by decide) hres
  · rw [if_neg hid]
    exact ⟨st, rfl⟩

theorem step3_no_error {st : Fs}
    (hres : (lookupKey st.root "keys").isSome = true →
      rootExists st.root "keys" = true) :
    ∃ s3, step3 st = (s3, none) := by
  unfold step3
  by_cases hg : (!(rootExists st.root "keys") && rootIsDir st.root "key") = true
  · rw [if_pos hg]
    have hke : rootExists st.root "keys" = false := by
      revert hg
      cases rootExists st.root "keys" <;> cases rootIsDir st.root "key" <;> simp
    have hnone : lookupKey st.root "keys" = none := by
      cases hl : lookupKey st.root "keys" with
      | none => rfl
      | some v =>
        have := hres (by rw [hl]; rfl)
        rw [hke] at this
        exact absurd this (by simp)
    rw [if_neg (by simp [hnone])]
    exact ⟨_, rfl⟩
  · rw [if_neg hg]
    exact ⟨st, rfl⟩

/-- After a successful `link_to_lowercase` on an existing non-symlink entry,
the lower-cased name resolves. -/
theorem llr_ensures {st s : Fs} {f : String} {w : Node} (hne : f ≠ lowerStr f)
    (h : linkToLowercaseRoot st f = (s, none))
    (htg : lookupKey st.root f = some w) (hw : nodeIsLink w = false) :
    rootExists s.root (lowerStr f) = true := by
  by_cases he : rootExists st.root (lowerStr f) = true
  · rw [llr_skip2 hne he] at h
    injection h with hs _
    rw [← hs]
    exact he
  · have he' : rootExists st.root (lowerStr f) = false := by
      revert he; cases rootExists st.root (lowerStr f) <;> simp
    by_cases hsm : (lookupKey st.root (lowerStr f)).isSome = true
    · rw [llr_err hne he' hsm] at h
      injection h with _ habs
      exact absurd habs (by simp)
    · have hnone : lookupKey st.root (lowerStr f) = none := by
        revert hsm; cases lookupKey st.root (lowerStr f) <;> simp
      rw [llr_add hne he' hnone] at h
      injection h with hs _
      rw [← hs]
      refine rootExists_link (t := f) ?_ (lookupKey_append_some htg) hw
      rw [lookupKey_append_none _ hnone]
      simp [lookupKey]

theorem step1_ensures {st s1 : Fs} (h1 : step1 st = (s1, none))
    (hA : lookupKey st.root "Addons" = some Node.dir) :
    rootExists s1.root "addons" = true := by
  unfold step1 at h1
  rw [if_pos (rootIsDir_of_dir hA)] at h1
  have := llr_ensures (f := "Addons") (by decide) h1 hA rfl
  exact this

theorem step2_ensures {st s2 : Fs} (h2 : step2 st = (s2, none))
    (hK : lookupKey st.root "Keys" = some Node.dir) :
    rootExists s2.root "keys" = true := by
  unfold step2 at h2
  rw [if_pos (rootIsDir_of_dir hK)] at h2
  have := llr_ensures (f := "Keys") (by decide) h2 hK rfl
  exact this

theorem step3_ensures {st s3 : Fs} (h3 : step3 st = (s3, none))
    (hk : lookupKey st.root "key" = some Node.dir) :
    rootExists s3.root "keys" = true := by
  unfold step3 at h3
  by_cases he : rootExists st.root "keys" = true
  · rw [if_neg (by simp [he])] at h3
    injection h3 with hs _
    rw [← hs]
    exact he
  · have he' : rootExists st.root "keys" = false := by
      revert he; cases rootExists st.root "keys" <;> simp
    rw [if_pos (by simp [he', rootIsDir_of_dir hk])] at h3
    by_cases hsm : (lookupKey st.root "keys").isSome = true
    · rw [if_pos hsm] at h3
      injection h3 with _ habs
      exact absurd habs (by simp)
    · have hnone : lookupKey st.root "keys" = none := by
        revert hsm; cases lookupKey st.root "keys" <;> simp
      rw [if_neg (by simp [hnone])] at h3
      injection h3 with hs _
      rw [← hs]
      refine rootExists_link (t := "key") ?_ (lookupKey_append_some hk) rfl
      rw [lookupKey_append_none _ hnone]
      simp [lookupKey]

/-- When every name in the list is already lower-case or has an existing
lower-case twin, the pbo loop is a no-op. -/
theorem linkLeavesLoop_noop :
    ∀ (L : List String) (c : List (String × Leaf)),
      (∀ n ∈ L, lowerStr n = n ∨ leafExists c (lowerStr n) = true) →
      linkLeavesLoop c L = (c, none) := by
  intro L
  induction L with
  | nil => intro c _; rfl
  | cons n rest ih =>
    intro c h
    have hrest := fun m hm => h m (List.mem_cons_of_mem _ hm)
    rcases h n (List.mem_cons_self n rest) with h1 | h2
    · by_cases hq : n = lowerStr n
      · rw [linkLeavesLoop, lll_skip1 hq]
        exact ih c hrest
      · exact absurd h1.symm hq
    · by_cases hq : n = lowerStr n
      · rw [linkLeavesLoop, lll_skip1 hq]
        exact ih c hrest
      · rw [linkLeavesLoop, lll_skip2 hq h2]
        exact ih c hrest

theorem lookupKey_singleton_ne [DecidableEq κ] {k k' : κ} (v : α)
    (h : ¬(k' = k)) : lookupKey [(k', v)] k = none := by
  simp [lookupKey, h]

/-- A state on which every step of the pass is a no-op. -/
theorem fixPaths_noop {st : Fs}
    (h1 : rootIsDir st.root "Addons" = true → rootExists st.root "addons" = true)
    (h2 : rootIsDir st.root "Keys" = true → rootExists st.root "keys" = true)
    (h3 : rootIsDir st.root "key" = true → rootExists st.root "keys" = true)
    (h4 : ∀ d, physDir st.root "addons" = some d →
      linkLeavesLoop (contentsOf st.dirs d) (globPbo (contentsOf st.dirs d)) =
        (contentsOf st.dirs d, none)) :
    fixPaths st = (st, none) := by
  have hs1 : step1 st = (st, none) := by
    unfold step1
    by_cases hid : rootIsDir st.root "Addons" = true
    · rw [if_pos hid]
      exact llr_skip2 (by decide) (h1 hid)
    · rw [if_neg hid]
  have hs2 : step2 st = (st, none) := by
    unfold step2
    by_cases hid : rootIsDir st.root "Keys" = true
    · rw [if_pos hid]
      exact llr_skip2 (by decide) (h2 hid)
    · rw [if_neg hid]
  have hs3 : step3 st = (st, none) := by
    unfold step3
    by_cases he : rootExists st.root "keys" = true
    · rw [if_neg (by simp [he])]
    · by_cases hk : rootIsDir st.root "key" = true
      · exact absurd (h3 hk) he
      · have hg : (!(rootExists st.root "keys") && rootIsDir st.root "key") =
            false := by
          revert hk; cases rootIsDir st.root "key" <;> simp
        rw [if_neg (by simp [hg])]
  have hs4 : step4 st = (st, none) := by
    unfold step4
    cases hp : physDir st.root "addons" with
    | none => rfl
    | some d =>
      dsimp only
      rw [h4 d hp]
      dsimp only
      rw [updDirs_self]
  unfold fixPaths andThenFs
  rw [hs1]
  dsimp only
  rw [hs2]
  dsimp only
  rw [hs3]
  dsimp only
  exact hs4

/-- On symlink-free directory contents, the pbo step succeeds and leaves a
state on which it is a no-op. -/
theorem step4_ok_stable {u : Fs}
    (hcl : ∀ d, noLinksLeaves (contentsOf u.dirs d) = true) :
    ∃ s4, step4 u = (s4, none) ∧ s4.root = u.root ∧
      ∀ d, physDir s4.root "addons" = some d →
        linkLeavesLoop (contentsOf s4.dirs d) (globPbo (contentsOf s4.dirs d)) =
          (contentsOf s4.dirs d, none) := by
  cases hp : physDir u.root "addons" with
  | none =>
    refine ⟨u, ?_, rfl, ?_⟩
    · unfold step4
      rw [hp]
    · intro d hpd
      rw [hp] at hpd
      exact absurd hpd (by simp)
  | some d0 =>
    obtain ⟨adds', hrun, hgood, hpost⟩ :=
      linkLeavesLoop_ok (hcl d0) (globPbo (contentsOf u.dirs d0))
        (fun n hn => globPbo_mem_lookup hn) [] (by simp)
    rw [List.append_nil] at hrun
    simp only [List.nil_append] at hrun hgood hpost
    obtain ⟨la, hc'eq, hframe⟩ :=
      linkLeavesLoop_frame (globPbo (contentsOf u.dirs d0))
        (contentsOf u.dirs d0) _ _ hrun
    have hla : adds' = la := by
      have := hc'eq
      exact List.append_cancel_left this
    subst hla
    refine ⟨⟨u.root, updDirs u.dirs d0 (contentsOf u.dirs d0 ++ adds')⟩, ?_, rfl, ?_⟩
    · unfold step4
      rw [hp]
      dsimp only
      rw [hrun]
    · intro d hpd
      rw [hp] at hpd
      injection hpd with hdd
      subst hdd
      cases hl : lookupKey u.dirs d0 with
      | none =>
        have hcnil : contentsOf u.dirs d0 = [] := by simp [contentsOf, hl]
        have hanil : adds' = [] := by
          rw [hcnil] at hrun
          have : linkLeavesLoop ([] : List (String × Leaf)) (globPbo []) =
              ([], none) := rfl
          rw [show globPbo ([] : List (String × Leaf)) = [] from rfl] at hrun
          rw [show linkLeavesLoop ([] : List (String × Leaf)) [] = ([], none)
            from rfl] at hrun
          injection hrun with hrun1 _
          simpa using hrun1.symm
        subst hanil
        rw [hcnil, List.append_nil, updDirs_of_none _ hl]
        rw [hcnil]
        rfl
      | some cv =>
        have hcont : contentsOf
            (updDirs u.dirs d0 (contentsOf u.dirs d0 ++ adds')) d0 =
            contentsOf u.dirs d0 ++ adds' := by
          unfold contentsOf
          rw [lookupKey_updDirs_self _ (by rw [hl]; rfl)]
          rfl
        rw [hcont]
        apply linkLeavesLoop_noop
        intro n hn
        rw [globPbo_append] at hn
        rcases List.mem_append.mp hn with hn | hn
        · exact hpost n hn
        · have hnk : n ∈ adds'.map Prod.fst := by
            unfold globPbo at hn
            exact List.mem_of_mem_filter hn
          obtain ⟨p, hpmem, hpfst⟩ := List.mem_map.mp hnk
          obtain ⟨t, _, hpt, _, _⟩ := hframe p hpmem
          refine Or.inl ?_
          rw [← hpfst, hpt]
          exact lowerStr_idem t

/-- Claim C6: on an installed-mod tree (no symlinks, as the content
distribution lays files out), the case-reconciliation pass succeeds, and
running it a second time yields the identical filesystem state with no
error raised. -/
theorem fixPaths_idempotent :
    ∀ st : Fs, noLinksFs st = true →
      ∃ st', fixPaths st = (st', none) ∧ fixPaths st' = (st', none) := by
  intro st hnl
  have hroot : noLinksRoot st.root = true := by
    revert hnl; unfold noLinksFs; cases noLinksRoot st.root <;> simp
  have hdirsAll : (st.dirs.all fun p => noLinksLeaves p.2) = true := by
    revert hnl; unfold noLinksFs
    cases noLinksRoot st.root <;>
      cases (st.dirs.all fun p => noLinksLeaves p.2) <;> simp
  have hcontents : ∀ d, noLinksLeaves (contentsOf st.dirs d) = true := by
    intro d
    unfold contentsOf
    cases hl : lookupKey st.dirs d with
    | none => rfl
    | some c =>
      have := List.all_eq_true.mp hdirsAll _ (lookupKey_mem hl)
      simpa using this
  have hresSt : ∀ n, (lookupKey st.root n).isSome = true →
      rootExists st.root n = true := by
    intro n h
    rw [rootExists_noLinks hroot]
    exact h
  -- step 1
  obtain ⟨s1, h1⟩ := step1_no_error (hresSt "addons")
  have f1 := step1_frame h1
  have hs1look : ∀ n, ¬(n = "addons") →
      lookupKey s1.root n = lookupKey st.root n := by
    intro n hn
    rcases f1.2 with hr | ⟨hr, _, _⟩
    · rw [hr]
    · rw [hr]
      exact lookupKey_append_right_none _
        (lookupKey_singleton_ne _ fun hh => hn hh.symm)
  have hresS1keys : (lookupKey s1.root "keys").isSome = true →
      rootExists s1.root "keys" = true := by
    intro hs
    rw [hs1look "keys" (by decide)] at hs
    have hex := hresSt "keys" hs
    rcases f1.2 with hr | ⟨hr, _, _⟩
    · rw [hr]; exact hex
    · rw [hr]; exact rootExists_append hex
  -- step 2
  obtain ⟨s2, h2⟩ := step2_no_error hresS1keys
  have f2 := step2_frame h2
  have hs2look : ∀ n, ¬(n = "addons") → ¬(n = "keys") →
      lookupKey s2.root n = lookupKey st.root n := by
    intro n hna hnk
    rcases f2.2 with hr | ⟨hr, _, _⟩
    · rw [hr]; exact hs1look n hna
    · rw [hr, lookupKey_append_right_none _
        (lookupKey_singleton_ne _ fun hh => hnk hh.symm)]
      exact hs1look n hna
  have hresS2keys : (lookupKey s2.root "keys").isSome = true →
      rootExists s2.root "keys" = true := by
    rcases f2.2 with hr | ⟨hr, htg, hfresh⟩
    · intro hs
      rw [hr] at hs ⊢
      exact hresS1keys hs
    · intro _
      rw [hr]
      cases hw : lookupKey s1.root "Keys" with
      | none => rw [hw] at htg; exact absurd htg (by simp)
      | some w =>
        have hwst : lookupKey st.root "Keys" = some w := by
          rw [← hs1look "Keys" (by decide)]; exact hw
        have hwnl : nodeIsLink w = false := noLinksRoot_lookup hroot hwst
        refine rootExists_link (t := "Keys") ?_ (lookupKey_append_some hw) hwnl
        rw [lookupKey_append_none _ hfresh]
        simp [lookupKey]
  -- step 3
  obtain ⟨s3, h3⟩ := step3_no_error hresS2keys
  have f3 := step3_frame h3
  have hs3look : ∀ n, ¬(n = "addons") → ¬(n = "keys") →
      lookupKey s3.root n = lookupKey st.root n := by
    intro n hna hnk
    rcases f3.2 with hr | ⟨hr, _, _⟩
    · rw [hr]; exact hs2look n hna hnk
    · rw [hr, lookupKey_append_right_none _
        (lookupKey_singleton_ne _ fun hh => hnk hh.symm)]
      exact hs2look n hna hnk
  have hdirs3 : s3.dirs = st.dirs := f3.1.trans (f2.1.trans f1.1)
  -- step 4
  obtain ⟨st', h4, h4root, hF4⟩ := step4_ok_stable (u := s3)
    (fun d => by rw [hdirs3]; exact hcontents d)
  have hrootEq : st'.root = s3.root := h4root
  -- push helper: exists at an earlier state survives the later appends
  have push23 : ∀ {n : String}, rootExists s1.root n = true →
      rootExists s3.root n = true := by
    intro n hx
    have hx2 : rootExists s2.root n = true := by
      rcases f2.2 with hr | ⟨hr, _, _⟩
      · rw [hr]; exact hx
      · rw [hr]; exact rootExists_append hx
    rcases f3.2 with hr | ⟨hr, _, _⟩
    · rw [hr]; exact hx2
    · rw [hr]; exact rootExists_append hx2
  -- stability facts for the second run
  have hF1 : rootIsDir st'.root "Addons" = true →
      rootExists st'.root "addons" = true := by
    intro hid
    rw [hrootEq] at hid ⊢
    have hl := hs3look "Addons" (by decide) (by decide)
    cases hA : lookupKey st.root "Addons" with
    | none =>
      rw [rootIsDir_of_none (hl.trans hA)] at hid
      exact absurd hid (by simp)
    | some v =>
      have hvnl := noLinksRoot_lookup hroot hA
      cases v with
      | dir => exact push23 (step1_ensures h1 hA)
      | file =>
        rw [rootIsDir_of_file (hl.trans hA)] at hid
        exact absurd hid (by simp)
      | link t => simp [nodeIsLink] at hvnl
  have hF2 : rootIsDir st'.root "Keys" = true →
      rootExists st'.root "keys" = true := by
    intro hid
    rw [hrootEq] at hid ⊢
    have hl := hs3look "Keys" (by decide) (by decide)
    cases hA : lookupKey st.root "Keys" with
    | none =>
      rw [rootIsDir_of_none (hl.trans hA)] at hid
      exact absurd hid (by simp)
    | some v =>
      have hvnl := noLinksRoot_lookup hroot hA
      cases v with
      | dir =>
        have hK1 : lookupKey s1.root "Keys" = some Node.dir := by
          rw [hs1look "Keys" (by decide)]; exact hA
        have e2 := step2_ensures h2 hK1
        rcases f3.2 with hr | ⟨hr, _, _⟩
        · rw [hr]; exact e2
        · rw [hr]; exact rootExists_append e2
      | file =>
        rw [rootIsDir_of_file (hl.trans hA)] at hid
        exact absurd hid (by simp)
      | link t => simp [nodeIsLink] at hvnl
  have hF3 : rootIsDir st'.root "key" = true →
      rootExists st'.root "keys" = true := by
    intro hid
    rw [hrootEq] at hid ⊢
    have hl := hs3look "key" (by decide) (by decide)
    cases hA : lookupKey st.root "key" with
    | none =>
      rw [rootIsDir_of_none (hl.trans hA)] at hid
      exact absurd hid (by simp)
    | some v =>
      have hvnl := noLinksRoot_lookup hroot hA
      cases v with
      | dir =>
        have hK2 : lookupKey s2.root "key" = some Node.dir := by
          rw [hs2look "key" (by decide) (by decide)]; exact hA
        exact step3_ensures h3 hK2
      | file =>
        rw [rootIsDir_of_file (hl.trans hA)] at hid
        exact absurd hid (by simp)
      | link t => simp [nodeIsLink] at hvnl
  have hfix : fixPaths st = (st', none) := by
    unfold fixPaths andThenFs
    rw [h1]
    dsimp only
    rw [h2]
    dsimp only
    rw [h3]
    dsimp only
    exact h4
  exact ⟨st', hfix, fixPaths_noop hF1 hF2 hF3 hF4⟩

/-- Claim C6 witness: an install directory containing a mixed-case `Addons`
directory (holding a mixed-case pbo) and a metadata file. -/
theorem fixPaths_idempotent_witness :
    noLinksFs (Fs.mk [("Addons", Node.dir), ("meta.cpp", Node.file)]
      [("Addons", [("Foo.pbo", Leaf.file)])]) = true ∧
    ∃ st', fixPaths (Fs.mk [("Addons", Node.dir), ("meta.cpp", Node.file)]
        [("Addons", [("Foo.pbo", Leaf.file)])]) = (st', none) ∧
      fixPaths st' = (st', none) :=
  ⟨by decide,
    fixPaths_idempotent
      (Fs.mk [("Addons", Node.dir), ("meta.cpp", Node.file)]
        [("Addons", [("Foo.pbo", Leaf.file)])]) (by decide)⟩

/-- Claim C7 witness: a tree with mixed-case `Addons` and `Keys` directories
and a mixed-case pbo next to an already-lower-case one. -/
theorem fixPaths_never_overwrites_witness :
    fixPaths (Fs.mk
        [("Addons", Node.dir), ("Keys", Node.dir), ("meta.cpp", Node.file)]
        [("Addons", [("MyMod.pbo", Leaf.file), ("data.pbo", Leaf.file)])]) =
      (Fs.mk
        [("Addons", Node.dir), ("Keys", Node.dir), ("meta.cpp", Node.file),
          ("addons", Node.link "Addons"), ("keys", Node.link "Keys")]
        [("Addons", [("MyMod.pbo", Leaf.file), ("data.pbo", Leaf.file),
          ("mymod.pbo", Leaf.link "MyMod.pbo")])], none) ∧
    ((∃ ra, (Fs.mk
        [("Addons", Node.dir), ("Keys", Node.dir), ("meta.cpp", Node.file),
          ("addons", Node.link "Addons"), ("keys", Node.link "Keys")]
        [("Addons", [("MyMod.pbo", Leaf.file), ("data.pbo", Leaf.file),
          ("mymod.pbo", Leaf.link "MyMod.pbo")])]).root =
        (Fs.mk
          [("Addons", Node.dir), ("Keys", Node.dir), ("meta.cpp", Node.file)]
          [("Addons", [("MyMod.pbo", Leaf.file),
            ("data.pbo", Leaf.file)])]).root ++ ra ∧
      goodRootAdds (Fs.mk
        [("Addons", Node.dir), ("Keys", Node.dir), ("meta.cpp", Node.file)]
        [("Addons", [("MyMod.pbo", Leaf.file),
          ("data.pbo", Leaf.file)])]).root ra) ∧
    (∀ x, ∃ la, contentsOf (Fs.mk
        [("Addons", Node.dir), ("Keys", Node.dir), ("meta.cpp", Node.file),
          ("addons", Node.link "Addons"), ("keys", Node.link "Keys")]
        [("Addons", [("MyMod.pbo", Leaf.file), ("data.pbo", Leaf.file),
          ("mymod.pbo", Leaf.link "MyMod.pbo")])]).dirs x =
        contentsOf (Fs.mk
          [("Addons", Node.dir), ("Keys", Node.dir), ("meta.cpp", Node.file)]
          [("Addons", [("MyMod.pbo", Leaf.file),
            ("data.pbo", Leaf.file)])]).dirs x ++ la ∧
      goodLeafAdds (contentsOf (Fs.mk
        [("Addons", Node.dir), ("Keys", Node.dir), ("meta.cpp", Node.file)]
        [("Addons", [("MyMod.pbo", Leaf.file),
          ("data.pbo", Leaf.file)])]).dirs x) la)) :=
  ⟨by decide,
    fixPaths_never_overwrites
      (Fs.mk
        [("Addons", Node.dir), ("Keys", Node.dir), ("meta.cpp", Node.file)]
        [("Addons", [("MyMod.pbo", Leaf.file), ("data.pbo", Leaf.file)])])
      (Fs.mk
        [("Addons", Node.dir), ("Keys", Node.dir), ("meta.cpp", Node.file),
          ("addons", Node.link "Addons"), ("keys", Node.link "Keys")]
        [("Addons", [("MyMod.pbo", Leaf.file), ("data.pbo", Leaf.file),
          ("mymod.pbo", Leaf.link "MyMod.pbo")])])
      none (by decide)⟩

end Dzdsu
